import Mathlib

/-! Trial-division prime generator: `primelib.c` and `prime5.c`

The repository holds one algorithm in two copies: the library function
`primes(n)` of `primelib.c` and the `main` of `prime5.c`.  Both keep a stack
buffer `int primes[10000]`, seed it with 2 and 3, and test the odd candidates
`i = 5, 7, 9, ...` by trial division against the stored primes until `count`
exceeds `n`.

The embedding is shallow: every C statement becomes a pure step on explicit
state.  Three things of the C abstract machine are made explicit.

* `int` arithmetic goes through `IntMode.norm`: unbounded integers, 32-bit
  two's-complement wrap-around, or ISO C (signed overflow is undefined and
  ends the run with a fault).
* The buffer is not zeroed by the declaration; its cells hold whatever the
  stack held.  That content is the parameter `garbage`.
* `for` and `while (1)` may run forever; the outer loop takes a fuel that
  counts executions of its body, the inner scan is bounded by the buffer
  length because a read past the last cell is a fault.
-/

namespace Primes

/-- Number of cells of `int primes[10000]`. -/
def CAPACITY : Nat := 10000

/-- Largest value of a 32-bit `int`. -/
def INT_MAX : Int := 2147483647

/-- Smallest value of a 32-bit `int`. -/
def INT_MIN : Int := -2147483648

/-- Undefined behaviours the two programs can run into. -/
inductive Fault where
  | overflow
  | divByZero
  | readOutOfBounds
  | writeOutOfBounds
  deriving DecidableEq, Repr

/-- Result of running a piece of the program: a value, a fault of the
abstract machine, or no answer within the fuel given. -/
inductive Res (α : Type) where
  | val (a : α)
  | fault (f : Fault)
  | timeout
  deriving DecidableEq, Repr

/-- Sequencing: a fault or a timeout of the first part ends the run. -/
def Res.bind {α β : Type} : Res α → (α → Res β) → Res β
  | .val a, k => k a
  | .fault f, _ => .fault f
  | .timeout, _ => .timeout

/-- Interpretation of signed `int` arithmetic. -/
inductive IntMode where
  | exact
  | wrap
  | checked
  deriving DecidableEq, Repr

/-- Two's-complement reduction of an integer to 32 bits. -/
def wrap32 (x : Int) : Int := (x + 2147483648) % 4294967296 - 2147483648

/-- Value of an `int` expression whose mathematical value is `x`. -/
def IntMode.norm : IntMode → Int → Res Int
  | .exact, x => .val x
  | .wrap, x => .val (wrap32 x)
  | .checked, x => if INT_MIN ≤ x ∧ x ≤ INT_MAX then .val x else .fault .overflow

/-- Contents of the cells of `int primes[10000]`, by index. -/
abbrev Buffer := Nat → Int

/-- Buffer after the assignment `primes[k] = v`. -/
def Buffer.set (b : Buffer) (k : Nat) (v : Int) : Buffer :=
  fun j => if j = k then v else b j

/-- Read of the cell `ptr` points at, `ptr - primes = k`. -/
def load (b : Buffer) (k : Nat) : Res Int :=
  if k < CAPACITY then .val (b k) else .fault .readOutOfBounds

/-- Assignment `primes[idx] = v` with the index as computed by the program. -/
def store (b : Buffer) (idx : Int) (v : Int) : Res Buffer :=
  if 0 ≤ idx ∧ idx < CAPACITY then .val (b.set idx.toNat v) else .fault .writeOutOfBounds

/-- Local variables `i`, `count` and the array `primes`. -/
structure Vars where
  i : Int
  count : Int
  primes : Buffer

/-- Which `break` of the inner `while (1)` was taken. -/
inductive Verdict where
  | composite
  | prime
  deriving DecidableEq, Repr

/-- Buffer as the declaration and the `if ( n >= 1 )` block leave it. -/
def seed (garbage : Buffer) (n : Int) : Buffer :=
  if n ≥ 1 then (garbage.set 0 2).set 1 3 else garbage

end Primes

namespace Primelib

open Primes

/-- Inner `while(1)` of `primes` (primelib.c lines 24-39) with `ptr` at cell
`k`.  `*ptr` is read, `i % *ptr` and `(*ptr)*(*ptr)` are computed, and the
prime branch stores and counts before it breaks. -/
def innerLoop (m : IntMode) : Nat → Nat → Vars → Res (Verdict × Vars)
  | 0, _, _ => .timeout
  | fuel + 1, k, s =>
    (load s.primes k).bind fun p =>
    if p = 0 then .fault .divByZero
    else if s.i.tmod p = 0 then .val (.composite, s)
    else (m.norm (p * p)).bind fun sq =>
      if sq > s.i then
        (if s.i < 100000 then
            (m.norm (s.count - 1)).bind fun idx => store s.primes idx s.i
          else .val s.primes).bind fun buf =>
        (m.norm (s.count + 1)).bind fun c =>
        .val (.prime, { s with count := c, primes := buf })
      else innerLoop m fuel (k + 1) s

/-- The `for ( count = 3 ; count <= n ; )` loop of `primes` (lines 19-43):
`ptr = primes; ptr++;`, the inner loop, then `i+=2`.  The fuel bounds the
number of executions of the body. -/
def forLoop (m : IntMode) (n : Int) : Nat → Vars → Res Vars
  | 0, s => if s.count ≤ n then .timeout else .val s
  | fuel + 1, s =>
    if s.count ≤ n then
      (innerLoop m CAPACITY 1 s).bind fun r =>
      (m.norm (r.2.i + 2)).bind fun i2 =>
      forLoop m n fuel { r.2 with i := i2 }
    else .val s

/-- Variables of `primes(n)` when the `for` loop is left. -/
def run (m : IntMode) (garbage : Buffer) (n : Int) (fuel : Nat) : Res Vars :=
  forLoop m n fuel { i := 5, count := 3, primes := seed garbage n }

/-- The library function `int primes(int n)`: `return i-2;`. -/
def primes (m : IntMode) (garbage : Buffer) (n : Int) (fuel : Nat) : Res Int :=
  (run m garbage n fuel).bind fun s => m.norm (s.i - 2)

end Primelib

namespace Prime5

open Primes

/-- What `main` writes to standard output: one value per line in listing
mode, or the pair printed by the default line. -/
inductive Output where
  | listing (values : List Int)
  | nth (value : Int) (n : Int)
  deriving DecidableEq, Repr

/-- Inner `while(1)` of `main` (prime5.c lines 30-47) with `ptr` at cell `k`. -/
def innerLoop (m : IntMode) : Nat → Nat → Vars → Res (Verdict × Vars)
  | 0, _, _ => .timeout
  | fuel + 1, k, s =>
    (load s.primes k).bind fun p =>
    if p = 0 then .fault .divByZero
    else if s.i.tmod p = 0 then .val (.composite, s)
    else (m.norm (p * p)).bind fun sq =>
      if sq > s.i then
        (if s.i < 100000 then
            (m.norm (s.count - 1)).bind fun idx => store s.primes idx s.i
          else .val s.primes).bind fun buf =>
        (m.norm (s.count + 1)).bind fun c =>
        .val (.prime, { s with count := c, primes := buf })
      else innerLoop m fuel (k + 1) s

/-- The `for ( count = 3 ; count <= n ; )` loop of `main` (lines 25-51). -/
def forLoop (m : IntMode) (n : Int) : Nat → Vars → Res Vars
  | 0, s => if s.count ≤ n then .timeout else .val s
  | fuel + 1, s =>
    if s.count ≤ n then
      (innerLoop m CAPACITY 1 s).bind fun r =>
      (m.norm (r.2.i + 2)).bind fun i2 =>
      forLoop m n fuel { r.2 with i := i2 }
    else .val s

/-- Variables of `main` when the `for` loop is left, `n` being the number
read by `scanf`. -/
def run (m : IntMode) (garbage : Buffer) (n : Int) (fuel : Nat) : Res Vars :=
  forLoop m n fuel { i := 5, count := 3, primes := seed garbage n }

/-- The reads `primes[j]` of `for(int j = 0; j < n; j++)`, in order. -/
def readAll (b : Buffer) : List Nat → Res (List Int)
  | [] => .val []
  | j :: js => (load b j).bind fun v => (readAll b js).bind fun vs => .val (v :: vs)

/-- The program `main`: the loop, then the listing when `argc > 1` and the
line with `i-2` and `n` otherwise. -/
def main (m : IntMode) (argc : Int) (garbage : Buffer) (n : Int) (fuel : Nat) : Res Output :=
  (run m garbage n fuel).bind fun s =>
    if argc > 1 then
      (readAll s.primes (List.range n.toNat)).bind fun vs => .val (.listing vs)
    else (m.norm (s.i - 2)).bind fun v => .val (.nth v n)

end Prime5

namespace Primes

/-! ### Devices of the proofs

Nothing below is program text.  `sieveTest`, `smallTest`, `cntBlock` and
`cntRange` count primes in an interval by evaluation; `Inv` is the relation
the outer loop keeps at its head; `primeBranch` is the effect of the prime
branch when no arithmetic faults. -/

/-- Coprimality with `330!`: for `331 ≤ x < 331 * 331` this is primality. -/
def sieveTest (x : Nat) : Bool := Nat.beq (Nat.gcd x (Nat.factorial 330)) 1

/-- Coprimality with `(x - 1)!` for `2 ≤ x`: this is primality. -/
def smallTest (x : Nat) : Bool :=
  Nat.ble 2 x && Nat.beq (Nat.gcd x (Nat.factorial (x - 1))) 1

/-- Number of `x` with `a ≤ x < a + 2 ^ d` that pass the test `t`. -/
def cntBlock (t : Nat → Bool) : Nat → Nat → Nat
  | 0, a => bif t a then 1 else 0
  | d + 1, a => cntBlock t d a + cntBlock t d (a + 2 ^ d)

/-- Number of `x` with `a ≤ x < a + len` that pass the test `t`, for
`len < 2 ^ d`. -/
def cntRange (t : Nat → Bool) : Nat → Nat → Nat → Nat
  | 0, _, _ => 0
  | d + 1, a, len =>
    bif Nat.ble (2 ^ d) len then cntBlock t d a + cntRange t d (a + 2 ^ d) (len - 2 ^ d)
    else cntRange t d a len

/-- Verdict of the inner `while(1)` alone, read off the two source copies: the
reads of `*ptr`, the remainder and the square, without the store and the
increment of the prime branch.  `scan_bind_effect` ties it to `innerLoop`. -/
def scan (m : IntMode) (b : Buffer) (i : Int) : Nat → Nat → Res Verdict
  | 0, _ => .timeout
  | fuel + 1, k =>
    (load b k).bind fun p =>
    if p = 0 then .fault .divByZero
    else if i.tmod p = 0 then .val .composite
    else (m.norm (p * p)).bind fun sq =>
      if sq > i then .val .prime else scan m b i fuel (k + 1)

/-- The statements of the prime branch of the inner loop:
`if (i < 100000) primes[count-1] = i; count++;`. -/
def primeEffect (m : IntMode) (s : Vars) : Res Vars :=
  (if s.i < 100000 then
      (m.norm (s.count - 1)).bind fun idx => store s.primes idx s.i
    else .val s.primes).bind fun buf =>
  (m.norm (s.count + 1)).bind fun c =>
  .val { s with count := c, primes := buf }

/-- What the inner loop does once the verdict is known. -/
def afterVerdict (m : IntMode) (s : Vars) : Verdict → Res (Verdict × Vars)
  | .composite => .val (.composite, s)
  | .prime => (primeEffect m s).bind fun s' => .val (.prime, s')

/-- Variables after the prime branch of the inner loop, all arithmetic being
in range: the guarded store `primes[count-1] = i` and `count++`. -/
def primeBranch (s : Vars) : Vars :=
  { s with
    count := s.count + 1
    primes := if s.i < 100000 then s.primes.set (s.count - 1).toNat s.i else s.primes }

/-- Relation between the variables at the head of the outer loop and the
candidate `a`: `i` is the odd number `a ≥ 5`, `count - 1` is the number of
primes below `a`, cell `j` holds the `(j+1)`-th prime when that prime is below
`a` and below 100000, and every other cell is as the stack left it. -/
def Inv (garbage : Buffer) (s : Vars) (a : Nat) : Prop :=
  s.i = a ∧ 5 ≤ a ∧ a % 2 = 1 ∧ s.count = (Nat.count Nat.Prime a : Int) + 1 ∧
  (∀ j, Nat.nth Nat.Prime j < a → Nat.nth Nat.Prime j < 100000 →
    s.primes j = Nat.nth Nat.Prime j) ∧
  (∀ j, a ≤ Nat.nth Nat.Prime j ∨ 100000 ≤ Nat.nth Nat.Prime j → s.primes j = garbage j)

/-- Variables the outer loop of either copy starts with. -/
def start (garbage : Buffer) (n : Int) : Vars :=
  { i := 5, count := 3, primes := seed garbage n }

/-- One execution of the body of the outer loop of `primes`: the inner loop,
then `i+=2`.  `forLoop_succ` shows that `forLoop` is made of such passes. -/
def loopBody (m : IntMode) (s : Vars) : Res Vars :=
  (Primelib.innerLoop m CAPACITY 1 s).bind fun r =>
  (m.norm (r.2.i + 2)).bind fun i2 => .val { r.2 with i := i2 }

/-- The variables at the heads of the outer loop of a run from `s0`: `s0`
itself, and the result of a pass of the body from a head at which
`count <= n` holds. -/
inductive Head (m : IntMode) (n : Int) (s0 : Vars) : Vars → Prop where
  | first : Head m n s0 s0
  | next {s s' : Vars} : Head m n s0 s → s.count ≤ n → loopBody m s = .val s' → Head m n s0 s'

/-- Variables at a loop head of a run under wrap-around arithmetic once the
candidate `a` has passed 104745, on a stack that held 1 in cell 9592: `i` is
`a`, still an `int`; `count` lies between 10002 and `a - 2`; the cells
`1..9591` hold the odd primes below 100000 and cell 9592 still holds the 1. -/
def LateHead (s : Vars) (a : Nat) : Prop :=
  s.i = a ∧ 104745 ≤ a ∧ a ≤ 2147483647 ∧ 10002 ≤ s.count ∧ s.count + 2 ≤ (a : Int) ∧
  (∀ j, 1 ≤ j → j < 9592 → s.primes j = Nat.nth Nat.Prime j) ∧ s.primes 9592 = 1

/-- The scan of the inner loop together with the index of the cell at which
the verdict falls: the scan reads the cells from its first index to that one,
one after the other, and no other. -/
def scanTrace (m : IntMode) (b : Buffer) (i : Int) : Nat → Nat → Res (Verdict × Nat)
  | 0, _ => .timeout
  | fuel + 1, k =>
    (load b k).bind fun p =>
    if p = 0 then .fault .divByZero
    else if i.tmod p = 0 then .val (.composite, k)
    else (m.norm (p * p)).bind fun sq =>
      if sq > i then .val (.prime, k) else scanTrace m b i fuel (k + 1)

/-! ### Counting primes by evaluation -/

theorem gcd_factorial_eq_one_iff {x b : Nat} (h2 : 2 ≤ x) (hb : b < x)
    (hx : x < (b + 1) * (b + 1)) : Nat.gcd x (Nat.factorial b) = 1 ↔ Nat.Prime x := by
  constructor
  · intro h
    by_contra hnp
    have hq : (Nat.minFac x).Prime := Nat.minFac_prime (by omega)
    have hsq : Nat.minFac x ^ 2 ≤ x := Nat.minFac_sq_le_self (by omega) hnp
    have hle : Nat.minFac x ≤ b := by
      by_contra hlt
      have : (b + 1) * (b + 1) ≤ Nat.minFac x ^ 2 := by
        rw [pow_two]; exact Nat.mul_le_mul (by omega) (by omega)
      omega
    have hd : Nat.minFac x ∣ Nat.gcd x (Nat.factorial b) :=
      Nat.dvd_gcd (Nat.minFac_dvd x) (Nat.dvd_factorial hq.pos hle)
    rw [h] at hd
    exact hq.one_lt.ne' (Nat.dvd_one.1 hd)
  · intro hp
    have : ¬ x ∣ Nat.factorial b := by
      rw [hp.dvd_factorial]; omega
    exact (Nat.Prime.coprime_iff_not_dvd hp).2 this

theorem smallTest_iff (x : Nat) : smallTest x = true ↔ Nat.Prime x := by
  unfold smallTest
  by_cases h2 : 2 ≤ x
  · have hx : x < (x - 1 + 1) * (x - 1 + 1) := by
      have : x - 1 + 1 = x := by omega
      rw [this]; nlinarith
    have := gcd_factorial_eq_one_iff h2 (by omega : x - 1 < x) hx
    simp [Nat.ble_eq, h2, this]
  · have hnp : ¬ Nat.Prime x := fun hp => h2 hp.two_le
    simp [Nat.ble_eq, h2, hnp]

theorem sieveTest_iff {x : Nat} (h1 : 331 ≤ x) (h2 : x < 109561) :
    sieveTest x = true ↔ Nat.Prime x := by
  unfold sieveTest
  have := gcd_factorial_eq_one_iff (by omega : 2 ≤ x) (by omega : 330 < x) (by omega)
  simp [this]

theorem count_block (t : Nat → Bool) (d a : Nat)
    (h : ∀ x, a ≤ x → x < a + 2 ^ d → (t x = true ↔ Nat.Prime x)) :
    Nat.count Nat.Prime (a + 2 ^ d) = Nat.count Nat.Prime a + cntBlock t d a := by
  induction d generalizing a with
  | zero =>
    have ht := h a le_rfl (by simp)
    simp only [pow_zero, Nat.count_succ, cntBlock]
    by_cases hp : Nat.Prime a
    · simp [hp, ht.2 hp]
    · have : t a = false := by
        cases hta : t a
        · rfl
        · exact absurd (ht.1 hta) hp
      simp [hp, this]
  | succ d ih =>
    have e : a + 2 ^ (d + 1) = (a + 2 ^ d) + 2 ^ d := by rw [pow_succ]; omega
    have h1 := ih a (fun x hx1 hx2 => h x hx1 (by rw [e]; omega))
    have h2 := ih (a + 2 ^ d) (fun x hx1 hx2 => h x (by omega) (by rw [e]; omega))
    rw [e, h2, h1, cntBlock]; omega

theorem count_range (t : Nat → Bool) (d a len : Nat) (hlen : len < 2 ^ d)
    (h : ∀ x, a ≤ x → x < a + len → (t x = true ↔ Nat.Prime x)) :
    Nat.count Nat.Prime (a + len) = Nat.count Nat.Prime a + cntRange t d a len := by
  induction d generalizing a len with
  | zero =>
    have : len = 0 := by simpa using hlen
    subst this; simp [cntRange]
  | succ d ih =>
    by_cases hle : 2 ^ d ≤ len
    · have hb := count_block t d a (fun x hx1 hx2 => h x hx1 (by omega))
      have hr := ih (a + 2 ^ d) (len - 2 ^ d) (by rw [pow_succ] at hlen; omega)
        (fun x hx1 hx2 => h x (by omega) (by omega))
      have e : a + len = a + 2 ^ d + (len - 2 ^ d) := by omega
      have hb2 : Nat.ble (2 ^ d) len = true := Nat.ble_eq_true_of_le hle
      rw [e, hr, hb, cntRange, hb2, cond_true]; omega
    · have hr := ih a len (by omega) h
      have hb2 : Nat.ble (2 ^ d) len = false := by
        cases hbl : Nat.ble (2 ^ d) len
        · rfl
        · exact absurd (Nat.le_of_ble_eq_true hbl) hle
      rw [hr, cntRange, hb2, cond_false]

theorem cnt_small : cntRange smallTest 9 0 331 = 66 := by decide!

theorem cnt_main : cntRange sieveTest 17 331 99669 = 9526 := by decide!

theorem cnt_tail : cntRange sieveTest 13 100000 4743 = 408 := by decide!

theorem count_331 : Nat.count Nat.Prime 331 = 66 := by
  have := count_range smallTest 9 0 331 (by norm_num) (fun x _ _ => smallTest_iff x)
  simpa [cnt_small] using this

theorem count_100000 : Nat.count Nat.Prime 100000 = 9592 := by
  have := count_range sieveTest 17 331 99669 (by norm_num)
    (fun x h1 h2 => sieveTest_iff h1 (by omega))
  rw [cnt_main, count_331] at this
  exact this

theorem count_104743 : Nat.count Nat.Prime 104743 = 10000 := by
  have := count_range sieveTest 13 100000 4743 (by norm_num)
    (fun x h1 h2 => sieveTest_iff (by omega) (by omega))
  rw [cnt_tail, count_100000] at this
  exact this

theorem nth_prime_10000 : Nat.nth Nat.Prime 10000 = 104743 := by
  have := Nat.nth_count (p := Nat.Prime) (by norm_num : Nat.Prime 104743)
  rwa [count_104743] at this

theorem nth_prime_lt_of_lt_10000 {j : Nat} (hj : j < 10000) :
    Nat.nth Nat.Prime j < 104743 := by
  have : Nat.nth Nat.Prime j < Nat.nth Nat.Prime 10000 :=
    (Nat.nth_lt_nth Nat.infinite_setOf_prime).2 hj
  rwa [nth_prime_10000] at this

theorem nth_prime_lt_100000 {j : Nat} (hj : j < 9592) : Nat.nth Nat.Prime j < 100000 := by
  rw [← count_100000] at hj
  exact (Nat.lt_nth_iff_count_lt Nat.infinite_setOf_prime).1 hj

theorem le_nth_prime_of_9592_le {j : Nat} (hj : 9592 ≤ j) : 100000 ≤ Nat.nth Nat.Prime j := by
  rw [← count_100000] at hj
  exact (Nat.count_le_iff_le_nth Nat.infinite_setOf_prime).1 hj

/-! ### Arithmetic in range -/

theorem Res.val_bind {α β : Type} (a : α) (k : α → Res β) : (Res.val a).bind k = k a := rfl

theorem Res.fault_bind {α β : Type} (f : Fault) (k : α → Res β) :
    (Res.fault f : Res α).bind k = .fault f := rfl

theorem Res.timeout_bind {α β : Type} (k : α → Res β) :
    (Res.timeout : Res α).bind k = .timeout := rfl

theorem Res.bind_assoc {α β γ : Type} (r : Res α) (f : α → Res β) (h : β → Res γ) :
    (r.bind f).bind h = r.bind fun a => (f a).bind h := by
  cases r <;> rfl

theorem norm_val (m : IntMode) {x : Int} (h1 : INT_MIN ≤ x) (h2 : x ≤ INT_MAX) :
    m.norm x = .val x := by
  cases m
  · rfl
  · simp only [IntMode.norm, wrap32]
    congr 1
    unfold INT_MIN INT_MAX at *
    omega
  · simp [IntMode.norm, h1, h2]

theorem nth_prime_succ_le (j : Nat) :
    Nat.nth Nat.Prime (j + 1) ≤ 2 * Nat.nth Nat.Prime j := by
  obtain ⟨r, hr, h1, h2⟩ :=
    Nat.exists_prime_lt_and_le_two_mul (Nat.nth Nat.Prime j) (Nat.prime_nth_prime j).ne_zero
  have hj : j < Nat.count Nat.Prime r :=
    (Nat.lt_nth_iff_count_lt Nat.infinite_setOf_prime).2 h1
  have hle : Nat.nth Nat.Prime (j + 1) ≤ Nat.nth Nat.Prime (Nat.count Nat.Prime r) :=
    (Nat.nth_le_nth Nat.infinite_setOf_prime).2 hj
  rw [Nat.nth_count hr] at hle
  omega

theorem three_le_nth_prime {j : Nat} (hj : 1 ≤ j) : 3 ≤ Nat.nth Nat.Prime j := by
  have := (Nat.nth_le_nth Nat.infinite_setOf_prime).2 hj
  rwa [Nat.nth_prime_one_eq_three] at this

/-- A number all of whose prime factors exceed `p`, with `a < p * p`, is prime. -/
theorem prime_of_no_small_factor {a p : Nat} (ha : 2 ≤ a) (hsq : a < p * p)
    (h : ∀ q, Nat.Prime q → q ≤ p → ¬ q ∣ a) : Nat.Prime a := by
  by_contra hnp
  have hq : (Nat.minFac a).Prime := Nat.minFac_prime (by omega)
  have hs : Nat.minFac a ^ 2 ≤ a := Nat.minFac_sq_le_self (by omega) hnp
  have hle : Nat.minFac a ≤ p := by
    by_contra hlt
    have : p * p ≤ Nat.minFac a ^ 2 := by
      rw [pow_two]; exact Nat.mul_le_mul (by omega) (by omega)
    omega
  exact h _ hq hle (Nat.minFac_dvd a)

/-- Every prime up to the prime of cell `k` sits in one of the cells `0..k`. -/
theorem exists_index_of_prime_le {q k : Nat} (hq : Nat.Prime q)
    (hle : q ≤ Nat.nth Nat.Prime k) : ∃ j, j ≤ k ∧ Nat.nth Nat.Prime j = q := by
  refine ⟨Nat.count Nat.Prime q, ?_, Nat.nth_count hq⟩
  have := (Nat.nth_le_nth Nat.infinite_setOf_prime (k := Nat.count Nat.Prime q) (n := k))
  rw [Nat.nth_count hq] at this
  exact this.1 hle

/-! ### The inner scan -/

/-- Facts on the prime of cell `k` when the scan has passed the cells
`1..k-1` without a verdict: it is below the candidate, small enough for its
square to fit an `int`, and its cell is one of the stored ones. -/
theorem scan_cell_bounds {a k : Nat} (ha5 : 5 ≤ a) (ha : a < 2 ^ 29) (hk : 1 ≤ k)
    (hscan : ∀ j, 1 ≤ j → j < k →
      ¬ Nat.nth Nat.Prime j ∣ a ∧ Nat.nth Nat.Prime j * Nat.nth Nat.Prime j ≤ a) :
    Nat.nth Nat.Prime k < a ∧ Nat.nth Nat.Prime k ≤ 46340 ∧ k < 9592 := by
  have hpa : Nat.nth Nat.Prime k < a ∧ Nat.nth Nat.Prime k ≤ 46340 := by
    rcases Nat.eq_or_lt_of_le hk with h1 | h1
    · rw [← h1, Nat.nth_prime_one_eq_three]; omega
    · obtain ⟨k', rfl⟩ : ∃ k', k = k' + 1 := ⟨k - 1, by omega⟩
      have hq := (hscan k' (by omega) (by omega)).2
      have h3 := three_le_nth_prime (j := k') (by omega)
      have h2 := nth_prime_succ_le k'
      have hq2 : Nat.nth Nat.Prime k' ≤ 23170 := by
        by_contra hlt
        have : 23171 * 23171 ≤ Nat.nth Nat.Prime k' * Nat.nth Nat.Prime k' :=
          Nat.mul_le_mul (by omega) (by omega)
        norm_num at ha
        omega
      have h4 : 3 * Nat.nth Nat.Prime k' ≤ Nat.nth Nat.Prime k' * Nat.nth Nat.Prime k' :=
        Nat.mul_le_mul_right _ h3
      constructor <;> omega
  refine ⟨hpa.1, hpa.2, ?_⟩
  have hlt : Nat.nth Nat.Prime k < 100000 := by omega
  have := (Nat.lt_nth_iff_count_lt Nat.infinite_setOf_prime).2 hlt
  rwa [count_100000] at this

theorem count_lt_capacity {a : Nat} (ha : a < 100000) :
    Nat.count Nat.Prime a < 9593 := by
  have := Nat.count_monotone Nat.Prime (Nat.le_of_lt ha)
  rw [count_100000] at this
  omega

/-- Scan of candidate `a` from cell `k` on, the cells before `k` having given
no verdict: the verdict is `prime` when `a` is prime and `composite` when it
is not, in every arithmetic mode.  Only the cells of primes up to 46340 are
looked at. -/
theorem scan_from (m : IntMode) (b : Buffer) (a : Nat) (ha5 : 5 ≤ a) (hodd : a % 2 = 1)
    (ha : a < 2 ^ 29)
    (hcells : ∀ j, 1 ≤ j → Nat.nth Nat.Prime j < a → Nat.nth Nat.Prime j ≤ 46340 →
      b j = Nat.nth Nat.Prime j) :
    ∀ fuel k, fuel + k = CAPACITY + 1 → 1 ≤ k →
      (∀ j, 1 ≤ j → j < k →
        ¬ Nat.nth Nat.Prime j ∣ a ∧ Nat.nth Nat.Prime j * Nat.nth Nat.Prime j ≤ a) →
      scan m b a fuel k = .val (if Nat.Prime a then Verdict.prime else Verdict.composite) := by
  intro fuel
  induction fuel with
  | zero =>
    intro k hk hk1 hscan
    have := (scan_cell_bounds ha5 ha hk1 hscan).2.2
    simp only [CAPACITY] at hk
    omega
  | succ f ih =>
    intro k hk hk1 hscan
    obtain ⟨hpa, hp46, hk9⟩ := scan_cell_bounds ha5 ha hk1 hscan
    have hpp : (Nat.nth Nat.Prime k).Prime := Nat.prime_nth_prime k
    have hp3 := three_le_nth_prime hk1
    have hcell : b k = (Nat.nth Nat.Prime k : Int) := hcells k hk1 hpa hp46
    have hload : load b k = .val (Nat.nth Nat.Prime k : Int) := by
      simp only [load, CAPACITY, hcell]
      rw [if_pos (by omega)]
    have hne : ((Nat.nth Nat.Prime k : Nat) : Int) ≠ 0 := by
      exact_mod_cast (by omega : Nat.nth Nat.Prime k ≠ 0)
    have hmod : (a : Int).tmod (Nat.nth Nat.Prime k : Int) =
        ((a % Nat.nth Nat.Prime k : Nat) : Int) := (Int.ofNat_tmod a _).symm
    rw [scan, hload]
    simp only [Res.bind, if_neg hne, hmod]
    by_cases hdvd : Nat.nth Nat.Prime k ∣ a
    · have hz : a % Nat.nth Nat.Prime k = 0 := Nat.mod_eq_zero_of_dvd hdvd
      have hnp : ¬ Nat.Prime a := by
        intro hp
        rcases (Nat.dvd_prime hp).1 hdvd with h | h <;> omega
      simp [hz, hnp]
    · have hz : ¬ ((a % Nat.nth Nat.Prime k : Nat) : Int) = 0 := by
        intro h
        exact hdvd (Nat.dvd_of_mod_eq_zero (by exact_mod_cast h))
      rw [if_neg hz]
      have hsqr : Nat.nth Nat.Prime k * Nat.nth Nat.Prime k ≤ 46340 * 46340 :=
        Nat.mul_le_mul hp46 hp46
      have hnorm : m.norm ((Nat.nth Nat.Prime k : Int) * (Nat.nth Nat.Prime k : Int)) =
          .val ((Nat.nth Nat.Prime k : Int) * (Nat.nth Nat.Prime k : Int)) := by
        apply norm_val
        · have h0 : (0 : Int) ≤ (Nat.nth Nat.Prime k : Int) * (Nat.nth Nat.Prime k : Int) := by
            positivity
          unfold INT_MIN; omega
        · unfold INT_MAX
          exact_mod_cast (by omega : Nat.nth Nat.Prime k * Nat.nth Nat.Prime k ≤ 2147483647)
      rw [hnorm]
      simp only [Res.bind]
      by_cases hgt : a < Nat.nth Nat.Prime k * Nat.nth Nat.Prime k
      · have hgt2 : (Nat.nth Nat.Prime k : Int) * (Nat.nth Nat.Prime k : Int) > (a : Int) := by
          exact_mod_cast hgt
        have hprime : Nat.Prime a := by
          refine prime_of_no_small_factor (by omega) hgt ?_
          intro q hq hqle hqa
          obtain ⟨j, hj, rfl⟩ := exists_index_of_prime_le hq hqle
          rcases Nat.eq_zero_or_pos j with h0 | h0
          · subst h0
            rw [Nat.nth_prime_zero_eq_two] at hqa
            omega
          · rcases Nat.eq_or_lt_of_le hj with h | h
            · subst h; exact hdvd hqa
            · exact (hscan j h0 h).1 hqa
        rw [if_pos hgt2, if_pos hprime]
      · have hgt2 : ¬ (Nat.nth Nat.Prime k : Int) * (Nat.nth Nat.Prime k : Int) > (a : Int) := by
          exact_mod_cast hgt
        rw [if_neg hgt2]
        apply ih (k + 1) (by omega) (by omega)
        intro j hj1 hj2
        rcases Nat.eq_or_lt_of_le (Nat.lt_succ_iff.1 hj2) with h | h
        · subst h; exact ⟨hdvd, by omega⟩
        · exact hscan j hj1 h

/-- The scan as the outer loop starts it, `ptr` at cell 1. -/
theorem scan_spec (m : IntMode) (b : Buffer) (a : Nat) (ha5 : 5 ≤ a) (hodd : a % 2 = 1)
    (ha : a < 2 ^ 29)
    (hcells : ∀ j, 1 ≤ j → Nat.nth Nat.Prime j < a → Nat.nth Nat.Prime j ≤ 46340 →
      b j = Nat.nth Nat.Prime j) :
    scan m b a CAPACITY 1 = .val (if Nat.Prime a then Verdict.prime else Verdict.composite) :=
  scan_from m b a ha5 hodd ha hcells CAPACITY 1 rfl le_rfl (fun j h1 h2 => by omega)

/-- The inner loop of `primes` is its scan followed by the statements of the
branch taken. -/
theorem scan_bind_effect (m : IntMode) (s : Vars) :
    ∀ fuel k, Primelib.innerLoop m fuel k s =
      (scan m s.primes s.i fuel k).bind (afterVerdict m s) := by
  intro fuel
  induction fuel with
  | zero => intro k; rfl
  | succ f ih =>
    intro k
    rw [Primelib.innerLoop, scan, Res.bind_assoc]
    congr 1
    funext p
    by_cases hp : p = 0
    · simp only [if_pos hp, Res.fault_bind]
    · simp only [if_neg hp]
      by_cases hm : s.i.tmod p = 0
      · simp only [if_pos hm, Res.val_bind, afterVerdict]
      · simp only [if_neg hm, Res.bind_assoc]
        congr 1
        funext sq
        by_cases hs : sq > s.i
        · simp only [if_pos hs, Res.val_bind, afterVerdict, primeEffect, Res.bind_assoc]
        · simp only [if_neg hs]
          exact ih (k + 1)

/-- The prime branch at the loop head: no fault, the store is in the buffer. -/
theorem primeEffect_spec (m : IntMode) (g : Buffer) (s : Vars) (a : Nat)
    (hinv : Inv g s a) (ha : a < 2 ^ 29) : primeEffect m s = .val (primeBranch s) := by
  obtain ⟨hi, ha5, hodd, hcount, -, -⟩ := hinv
  have hle := Nat.count_le (p := Nat.Prime) (n := a)
  norm_num at ha
  have hc1 : m.norm (s.count - 1) = .val (s.count - 1) := by
    apply norm_val <;> rw [hcount] <;> simp only [INT_MIN, INT_MAX] <;> omega
  have hc2 : m.norm (s.count + 1) = .val (s.count + 1) := by
    apply norm_val <;> rw [hcount] <;> simp only [INT_MIN, INT_MAX] <;> omega
  by_cases hsm : a < 100000
  · have hsm2 : s.i < 100000 := by rw [hi]; exact_mod_cast hsm
    have hst : store s.primes (s.count - 1) s.i =
        .val (s.primes.set (s.count - 1).toNat s.i) := by
      have := count_lt_capacity hsm
      simp only [store, CAPACITY]
      rw [if_pos]
      rw [hcount]
      constructor <;> omega
    simp only [primeEffect, if_pos hsm2, hc1, hc2, hst, Res.bind, primeBranch]
  · have hsm2 : ¬ s.i < 100000 := by rw [hi]; exact_mod_cast hsm
    simp only [primeEffect, if_neg hsm2, hc2, Res.bind, primeBranch]

/-- The inner loop at the loop head, candidate `a`. -/
theorem innerLoop_spec (m : IntMode) (g : Buffer) (s : Vars) (a : Nat)
    (hinv : Inv g s a) (ha : a < 2 ^ 29) :
    Primelib.innerLoop m CAPACITY 1 s =
      .val (if Nat.Prime a then (Verdict.prime, primeBranch s)
            else (Verdict.composite, s)) := by
  have hs := scan_spec m s.primes a hinv.2.1 hinv.2.2.1 ha
    (fun j _ hj h46 => hinv.2.2.2.2.1 j hj (by omega))
  rw [scan_bind_effect, hinv.1, hs]
  by_cases hp : Nat.Prime a
  · simp only [if_pos hp, Res.bind, afterVerdict, primeEffect_spec m g s a hinv ha]
  · simp only [if_neg hp, Res.bind, afterVerdict]

/-! ### The relation at the loop head is kept -/

theorem not_prime_succ_of_odd {a : Nat} (ha5 : 5 ≤ a) (hodd : a % 2 = 1) :
    ¬ Nat.Prime (a + 1) := by
  intro hp
  rcases hp.eq_two_or_odd with h | h <;> omega

theorem count_add_two {a : Nat} (ha5 : 5 ≤ a) (hodd : a % 2 = 1) :
    Nat.count Nat.Prime (a + 2) = Nat.count Nat.Prime a + if Nat.Prime a then 1 else 0 := by
  rw [Nat.count_succ, Nat.count_succ, if_neg (not_prime_succ_of_odd ha5 hodd)]
  rfl

/-- A prime below `a + 2` is below `a` or is `a` itself, `a` being odd. -/
theorem nth_lt_add_two {a j : Nat} (ha5 : 5 ≤ a) (hodd : a % 2 = 1)
    (h : Nat.nth Nat.Prime j < a + 2) :
    Nat.nth Nat.Prime j < a ∨ (Nat.nth Nat.Prime j = a ∧ j = Nat.count Nat.Prime a) := by
  have hp := Nat.prime_nth_prime j
  rcases Nat.lt_or_ge (Nat.nth Nat.Prime j) a with h1 | h1
  · exact Or.inl h1
  · right
    have hne : Nat.nth Nat.Prime j ≠ a + 1 := by
      intro he
      rw [he] at hp
      exact not_prime_succ_of_odd ha5 hodd hp
    have he : Nat.nth Nat.Prime j = a := by omega
    refine ⟨he, ?_⟩
    rw [← he, Nat.count_nth_of_infinite Nat.infinite_setOf_prime]

theorem inv_next_composite {g : Buffer} {s : Vars} {a : Nat} (hinv : Inv g s a)
    (hp : ¬ Nat.Prime a) : Inv g { s with i := s.i + 2 } (a + 2) := by
  obtain ⟨hi, ha5, hodd, hcount, hstored, hrest⟩ := hinv
  refine ⟨?_, by omega, by omega, ?_, ?_, ?_⟩
  · simp only [hi]; push_cast; ring
  · rw [count_add_two ha5 hodd, if_neg hp]; simpa using hcount
  · intro j hj hj2
    rcases nth_lt_add_two ha5 hodd hj with h | ⟨h, -⟩
    · exact hstored j h hj2
    · exact absurd (h ▸ Nat.prime_nth_prime j) hp
  · intro j hj
    exact hrest j (by omega)

theorem inv_next_prime {g : Buffer} {s : Vars} {a : Nat} (hinv : Inv g s a)
    (hp : Nat.Prime a) : Inv g { primeBranch s with i := s.i + 2 } (a + 2) := by
  obtain ⟨hi, ha5, hodd, hcount, hstored, hrest⟩ := hinv
  have hidx : (s.count - 1).toNat = Nat.count Nat.Prime a := by
    rw [hcount]; simp
  refine ⟨?_, by omega, by omega, ?_, ?_, ?_⟩
  · simp only [hi]; push_cast; ring
  · rw [count_add_two ha5 hodd, if_pos hp]
    simp only [primeBranch, hcount]; push_cast; ring
  · intro j hj hj2
    simp only [primeBranch, hidx]
    rcases nth_lt_add_two ha5 hodd hj with h | ⟨h, hjc⟩
    · have hne : j ≠ Nat.count Nat.Prime a := by
        intro he
        rw [he, Nat.nth_count hp] at h
        omega
      have := hstored j h hj2
      split
      · simpa [Buffer.set, hne] using this
      · exact this
    · have hsm : s.i < 100000 := by rw [hi]; exact_mod_cast (by omega : a < 100000)
      rw [if_pos hsm]
      simp [Buffer.set, hjc, hi, Nat.nth_count hp]
  · intro j hj
    simp only [primeBranch, hidx]
    have hold := hrest j (by omega)
    split
    · rename_i hsm
      have hsm2 : a < 100000 := by rw [hi] at hsm; exact_mod_cast hsm
      have hne : j ≠ Nat.count Nat.Prime a := by
        intro he
        rw [he, Nat.nth_count hp] at hj
        omega
      simpa [Buffer.set, hne] using hold
    · exact hold

/-! ### The outer loop -/

/-- One execution of the body of the outer loop at candidate `a`. -/
theorem forLoop_step (m : IntMode) (g : Buffer) (n : Int) (fuel : Nat) (s : Vars) (a : Nat)
    (hinv : Inv g s a) (ha : a < 2 ^ 29) (hle : s.count ≤ n) :
    ∃ s', Inv g s' (a + 2) ∧
      Primelib.forLoop m n (fuel + 1) s = Primelib.forLoop m n fuel s' := by
  have hi := hinv.1
  have hnorm : m.norm (s.i + 2) = .val (s.i + 2) := by
    norm_num at ha
    apply norm_val <;> rw [hi] <;> simp only [INT_MIN, INT_MAX] <;> omega
  rw [Primelib.forLoop, if_pos hle, innerLoop_spec m g s a hinv ha]
  by_cases hp : Nat.Prime a
  · refine ⟨{ primeBranch s with i := s.i + 2 }, inv_next_prime hinv hp, ?_⟩
    rw [if_pos hp]
    simp only [Res.bind]
    have : (primeBranch s).i = s.i := rfl
    rw [this, hnorm]
  · refine ⟨{ s with i := s.i + 2 }, inv_next_composite hinv hp, ?_⟩
    rw [if_neg hp]
    simp only [Res.bind, hnorm]

/-- From candidate `a` the loop needs `d` more executions of its body to
pass the prime `P`, and leaves with the candidate `P + 2`. -/
theorem forLoop_reaches (m : IntMode) (g : Buffer) (P : Nat) (hP : Nat.Prime P)
    (hb : P < 2 ^ 29) :
    ∀ d s a, Inv g s a → a + 2 * d = P + 2 → ∀ fuel, d ≤ fuel →
      ∃ s', Primelib.forLoop m ((Nat.count Nat.Prime P : Int) + 1) fuel s = .val s' ∧
        Inv g s' (P + 2) := by
  intro d
  induction d with
  | zero =>
    intro s a hinv had fuel _
    have ha : a = P + 2 := by omega
    subst ha
    have hcnt : ¬ s.count ≤ (Nat.count Nat.Prime P : Int) + 1 := by
      have := Nat.count_strict_mono hP (by omega : P < P + 2)
      rw [hinv.2.2.2.1]
      omega
    refine ⟨s, ?_, hinv⟩
    cases fuel <;> simp only [Primelib.forLoop, if_neg hcnt]
  | succ d ih =>
    intro s a hinv had fuel hfuel
    obtain ⟨f, rfl⟩ : ∃ f, fuel = f + 1 := ⟨fuel - 1, by omega⟩
    have haP : a ≤ P := by omega
    have hle : s.count ≤ (Nat.count Nat.Prime P : Int) + 1 := by
      rw [hinv.2.2.2.1]
      have := Nat.count_monotone Nat.Prime haP
      omega
    obtain ⟨s', hinv', hstep⟩ := forLoop_step m g _ f s a hinv (by omega) hle
    rw [hstep]
    exact ih s' (a + 2) hinv' (by omega) f (by omega)

theorem count_prime_five : Nat.count Nat.Prime 5 = 2 := by
  simp [Nat.count_succ]
  norm_num

theorem nth_prime_two : Nat.nth Nat.Prime 2 = 5 := by
  have := Nat.nth_count (p := Nat.Prime) (by norm_num : Nat.Prime 5)
  rwa [count_prime_five] at this

/-- The variables the outer loop starts from satisfy the relation. -/
theorem inv_init (g : Buffer) (n : Int) (hn : 1 ≤ n) :
    Inv g { i := 5, count := 3, primes := seed g n } 5 := by
  refine ⟨rfl, le_rfl, rfl, ?_, ?_, ?_⟩
  · rw [count_prime_five]; rfl
  · intro j hj _
    have hj2 : j < 2 := by
      have := (Nat.lt_nth_iff_count_lt Nat.infinite_setOf_prime).2 hj
      rwa [count_prime_five] at this
    have hs : seed g n = (g.set 0 2).set 1 3 := by simp [seed, hn]
    simp only [hs]
    interval_cases j
    · simp [Buffer.set, Nat.nth_prime_zero_eq_two]
    · simp [Buffer.set, Nat.nth_prime_one_eq_three]
  · intro j hj
    have hj2 : 2 ≤ j := by
      by_contra hlt
      have h1 : j ≤ 1 := by omega
      have h3 : Nat.nth Nat.Prime j ≤ Nat.nth Nat.Prime 1 :=
        (Nat.nth_le_nth Nat.infinite_setOf_prime).2 h1
      rw [Nat.nth_prime_one_eq_three] at h3
      omega
    have hs : seed g n = (g.set 0 2).set 1 3 := by simp [seed, hn]
    simp only [hs, Buffer.set]
    rw [if_neg (by omega), if_neg (by omega)]

/-! ### The whole run -/

theorem five_le_nth_prime {j : Nat} (hj : 2 ≤ j) : 5 ≤ Nat.nth Nat.Prime j := by
  have h : Nat.nth Nat.Prime 2 ≤ Nat.nth Nat.Prime j :=
    (Nat.nth_le_nth Nat.infinite_setOf_prime).2 hj
  rwa [nth_prime_two] at h

theorem nth_prime_odd {j : Nat} (hj : 1 ≤ j) : Nat.nth Nat.Prime j % 2 = 1 := by
  have h3 := three_le_nth_prime hj
  rcases (Nat.prime_nth_prime j).eq_two_or_odd with h | h
  · omega
  · exact h

/-- For `n ≤ 2` the body of the loop is never entered. -/
theorem run_small (m : IntMode) (g : Buffer) (n : Int) (hn : n ≤ 2) (fuel : Nat) :
    Primelib.run m g n fuel = .val { i := 5, count := 3, primes := seed g n } := by
  have h : ¬ (3 : Int) ≤ n := by omega
  cases fuel <;> simp only [Primelib.run, Primelib.forLoop, if_neg h]

/-- For `n ≥ 3` with the `n`-th prime below `2 ^ 29` the loop is left with
the candidate two above the `n`-th prime, after one execution of the body for
each odd number from 5 to the `n`-th prime. -/
theorem run_spec (m : IntMode) (g : Buffer) (n : Nat) (hn : 3 ≤ n)
    (hb : Nat.nth Nat.Prime (n - 1) < 2 ^ 29) (fuel : Nat)
    (hf : Nat.nth Nat.Prime (n - 1) ≤ 2 * fuel + 3) :
    ∃ s, Primelib.run m g (n : Int) fuel = .val s ∧
      Inv g s (Nat.nth Nat.Prime (n - 1) + 2) := by
  have hP := Nat.prime_nth_prime (n - 1)
  have h5 := five_le_nth_prime (j := n - 1) (by omega)
  have hodd := nth_prime_odd (j := n - 1) (by omega)
  have hcnt : ((Nat.count Nat.Prime (Nat.nth Nat.Prime (n - 1)) : Nat) : Int) + 1 = (n : Int) := by
    rw [Nat.count_nth_of_infinite Nat.infinite_setOf_prime]
    omega
  have := forLoop_reaches m g _ hP hb ((Nat.nth Nat.Prime (n - 1) - 3) / 2)
    { i := 5, count := 3, primes := seed g n } 5 (inv_init g n (by omega)) (by omega)
    fuel (by omega)
  rw [hcnt] at this
  exact this

/-- Cells of the buffer when the loop is left, `n ≥ 3`. -/
theorem final_cells {g : Buffer} {s : Vars} {n : Nat} (hn : 3 ≤ n)
    (hinv : Inv g s (Nat.nth Nat.Prime (n - 1) + 2)) (j : Nat) :
    (j < n → Nat.nth Nat.Prime j < 100000 → s.primes j = Nat.nth Nat.Prime j) ∧
    (n ≤ j ∨ 100000 ≤ Nat.nth Nat.Prime j → s.primes j = g j) := by
  have h5 := five_le_nth_prime (j := n - 1) (by omega)
  have hodd := nth_prime_odd (j := n - 1) (by omega)
  constructor
  · intro hj hsm
    have hle : Nat.nth Nat.Prime j ≤ Nat.nth Nat.Prime (n - 1) :=
      (Nat.nth_le_nth Nat.infinite_setOf_prime).2 (by omega)
    exact hinv.2.2.2.2.1 j (by omega) hsm
  · intro hj
    apply hinv.2.2.2.2.2 j
    rcases hj with hj | hj
    · left
      have hlt : Nat.nth Nat.Prime (n - 1) < Nat.nth Nat.Prime j :=
        (Nat.nth_lt_nth Nat.infinite_setOf_prime).2 (by omega)
      have hne : Nat.nth Nat.Prime j ≠ Nat.nth Nat.Prime (n - 1) + 1 := by
        intro he
        exact not_prime_succ_of_odd h5 hodd (he ▸ Nat.prime_nth_prime j)
      omega
    · exact Or.inr hj

/-- The value `primes(n)` returns for `n ≥ 3`: the `n`-th prime. -/
theorem primes_spec (m : IntMode) (g : Buffer) (n : Nat) (hn : 3 ≤ n)
    (hb : Nat.nth Nat.Prime (n - 1) < 2 ^ 29) (fuel : Nat)
    (hf : Nat.nth Nat.Prime (n - 1) ≤ 2 * fuel + 3) :
    Primelib.primes m g (n : Int) fuel = .val (Nat.nth Nat.Prime (n - 1) : Int) := by
  obtain ⟨s, hrun, hinv⟩ := run_spec m g n hn hb fuel hf
  have hi := hinv.1
  have hnorm : m.norm (s.i - 2) = .val (Nat.nth Nat.Prime (n - 1) : Int) := by
    have : s.i - 2 = (Nat.nth Nat.Prime (n - 1) : Int) := by rw [hi]; push_cast; ring
    rw [this]
    norm_num at hb
    apply norm_val <;> simp only [INT_MIN, INT_MAX] <;> omega
  rw [Primelib.primes, hrun, Res.val_bind, hnorm]

/-- The value `primes(n)` returns for `n ≤ 2`. -/
theorem primes_small (m : IntMode) (g : Buffer) (n : Int) (hn : n ≤ 2) (fuel : Nat) :
    Primelib.primes m g n fuel = .val 3 := by
  rw [Primelib.primes, run_small m g n hn fuel, Res.val_bind]
  show m.norm (5 - 2) = .val 3
  exact norm_val m (x := 3) (by decide) (by decide)

/-! ### The two copies of the loop -/

theorem prime5_innerLoop_eq (m : IntMode) (s : Vars) :
    ∀ fuel k, Prime5.innerLoop m fuel k s = Primelib.innerLoop m fuel k s := by
  intro fuel
  induction fuel with
  | zero => intro k; rfl
  | succ f ih =>
    intro k
    rw [Prime5.innerLoop, Primelib.innerLoop]
    simp only [ih]

theorem prime5_forLoop_eq (m : IntMode) (n : Int) :
    ∀ fuel s, Prime5.forLoop m n fuel s = Primelib.forLoop m n fuel s := by
  intro fuel
  induction fuel with
  | zero => intro s; rfl
  | succ f ih =>
    intro s
    rw [Prime5.forLoop, Primelib.forLoop]
    simp only [ih, prime5_innerLoop_eq]

theorem prime5_run_eq (m : IntMode) (g : Buffer) (n : Int) (fuel : Nat) :
    Prime5.run m g n fuel = Primelib.run m g n fuel :=
  prime5_forLoop_eq m n fuel _

/-! ### More fuel does not change a result -/

theorem forLoop_mono (m : IntMode) (n : Int) :
    ∀ f s s', Primelib.forLoop m n f s = .val s' →
      ∀ d, Primelib.forLoop m n (f + d) s = .val s' := by
  intro f
  induction f with
  | zero =>
    intro s s' h d
    rw [Primelib.forLoop] at h
    by_cases hc : s.count ≤ n
    · rw [if_pos hc] at h; exact absurd h (by simp)
    · rw [if_neg hc] at h
      cases d with
      | zero => rw [Primelib.forLoop, if_neg hc]; exact h
      | succ d => rw [Nat.zero_add, Primelib.forLoop, if_neg hc]; exact h
  | succ f ih =>
    intro s s' h d
    rw [Nat.add_right_comm, Primelib.forLoop]
    rw [Primelib.forLoop] at h
    by_cases hc : s.count ≤ n
    · rw [if_pos hc] at h ⊢
      cases hin : Primelib.innerLoop m CAPACITY 1 s with
      | val r =>
        rw [hin, Res.val_bind] at h
        rw [Res.val_bind]
        cases hno : m.norm (r.2.i + 2) with
        | val i2 =>
          rw [hno, Res.val_bind] at h
          rw [Res.val_bind]
          exact ih _ _ h d
        | fault e => rw [hno] at h; exact absurd h (by simp [Res.bind])
        | timeout => rw [hno] at h; exact absurd h (by simp [Res.bind])
      | fault e => rw [hin] at h; exact absurd h (by simp [Res.bind])
      | timeout => rw [hin] at h; exact absurd h (by simp [Res.bind])
    · rw [if_neg hc] at h ⊢
      exact h

theorem primes_mono {m : IntMode} {g : Buffer} {n : Int} {f : Nat} {v : Int}
    (h : Primelib.primes m g n f = .val v) (d : Nat) :
    Primelib.primes m g n (f + d) = .val v := by
  rw [Primelib.primes] at h ⊢
  cases hr : Primelib.run m g n f with
  | val s =>
    rw [hr, Res.val_bind] at h
    have := forLoop_mono m n f _ s hr d
    rw [Primelib.run, this, Res.val_bind, h]
  | fault e => rw [hr] at h; exact absurd h (by simp [Res.bind])
  | timeout => rw [hr] at h; exact absurd h (by simp [Res.bind])

theorem main_mono {m : IntMode} {argc : Int} {g : Buffer} {n : Int} {f : Nat}
    {o : Prime5.Output} (h : Prime5.main m argc g n f = .val o) (d : Nat) :
    Prime5.main m argc g n (f + d) = .val o := by
  rw [Prime5.main, prime5_run_eq] at h ⊢
  cases hr : Primelib.run m g n f with
  | val s =>
    rw [hr, Res.val_bind] at h
    have := forLoop_mono m n f _ s hr d
    rw [Primelib.run, this, Res.val_bind, h]
  | fault e => rw [hr] at h; exact absurd h (by simp [Res.bind])
  | timeout => rw [hr] at h; exact absurd h (by simp [Res.bind])

/-! ### Runs for `1 ≤ n ≤ 10001` -/

/-- Bound on the `n`-th prime and on the fuel for `3 ≤ n ≤ 10001`. -/
theorem nth_prime_bounds {n fuel : Nat} (h2 : n ≤ 10001) (hf : 52370 ≤ fuel) :
    Nat.nth Nat.Prime (n - 1) < 2 ^ 29 ∧ Nat.nth Nat.Prime (n - 1) ≤ 2 * fuel + 3 := by
  have h : Nat.nth Nat.Prime (n - 1) ≤ Nat.nth Nat.Prime 10000 :=
    (Nat.nth_le_nth Nat.infinite_setOf_prime).2 (by omega)
  rw [nth_prime_10000] at h
  constructor
  · norm_num; omega
  · omega

/-- The variables when the loop is left, for `1 ≤ n ≤ 10001`: the cells below
`n` and below 9592 hold the primes in order, the cells from 9592 on are as the
stack left them, and `i` is two above the `n`-th prime from `n = 2` on. -/
theorem run_summary (m : IntMode) (g : Buffer) (n : Nat) (h1 : 1 ≤ n) (h2 : n ≤ 10001)
    (fuel : Nat) (hf : 52370 ≤ fuel) :
    ∃ s, Primelib.run m g (n : Int) fuel = .val s ∧
      (∀ j, j < n → j < 9592 → s.primes j = Nat.nth Nat.Prime j) ∧
      (∀ j, 9592 ≤ j → s.primes j = g j) ∧
      (2 ≤ n → s.i = (Nat.nth Nat.Prime (n - 1) : Int) + 2) ∧ (n : Int) < s.count := by
  rcases Nat.lt_or_ge n 3 with hn | hn
  · refine ⟨_, run_small m g n (by omega) fuel, ?_, ?_, ?_, by simp only; omega⟩
    · intro j hj _
      have hs : seed g (n : Int) = (g.set 0 2).set 1 3 := by
        have : (n : Int) ≥ 1 := by omega
        simp [seed, this]
      simp only [hs]
      have : j = 0 ∨ j = 1 := by omega
      rcases this with rfl | rfl
      · simp [Buffer.set, Nat.nth_prime_zero_eq_two]
      · simp [Buffer.set, Nat.nth_prime_one_eq_three]
    · intro j hj
      have hs : seed g (n : Int) = (g.set 0 2).set 1 3 := by
        have : (n : Int) ≥ 1 := by omega
        simp [seed, this]
      simp only [hs, Buffer.set]
      rw [if_neg (by omega), if_neg (by omega)]
    · intro hn2
      have : n = 2 := by omega
      subst this
      simp [Nat.nth_prime_one_eq_three]
  · obtain ⟨hb, hfb⟩ := nth_prime_bounds (n := n) h2 hf
    obtain ⟨s, hrun, hinv⟩ := run_spec m g n hn hb fuel hfb
    have hcnt : (n : Int) < s.count := by
      have h5 := five_le_nth_prime (j := n - 1) (by omega)
      have hodd := nth_prime_odd (j := n - 1) (by omega)
      rw [hinv.2.2.2.1, count_add_two h5 hodd, if_pos (Nat.prime_nth_prime _),
        Nat.count_nth_of_infinite Nat.infinite_setOf_prime]
      omega
    refine ⟨s, hrun, ?_, ?_, ?_, hcnt⟩
    · intro j hj hj2
      exact (final_cells hn hinv j).1 hj (nth_prime_lt_100000 hj2)
    · intro j hj
      exact (final_cells hn hinv j).2 (Or.inr (le_nth_prime_of_9592_le hj))
    · intro _
      rw [hinv.1]; push_cast; ring

/-- Reads inside the buffer give the cells. -/
theorem readAll_val (b : Buffer) (js : List Nat) (h : ∀ j ∈ js, j < CAPACITY) :
    Prime5.readAll b js = .val (js.map b) := by
  induction js with
  | nil => rfl
  | cons j js ih =>
    have hj : j < CAPACITY := h j (List.mem_cons_self _ _)
    rw [Prime5.readAll, ih (fun x hx => h x (List.mem_cons_of_mem _ hx))]
    simp only [load, if_pos hj, Res.val_bind, List.map_cons]

/-- Listing mode of `main` for `1 ≤ n ≤ 10000`: the first `n` cells. -/
theorem main_listing (m : IntMode) (argc : Int) (g : Buffer) (n : Nat) (hargc : 1 < argc)
    (h1 : 1 ≤ n) (h2 : n ≤ 10000) (fuel : Nat) (hf : 52370 ≤ fuel) :
    ∃ s, Primelib.run m g (n : Int) fuel = .val s ∧
      Prime5.main m argc g (n : Int) fuel = .val (.listing ((List.range n).map s.primes)) := by
  obtain ⟨s, hrun, -⟩ := run_summary m g n h1 (by omega) fuel hf
  refine ⟨s, hrun, ?_⟩
  have hread := readAll_val s.primes (List.range n)
    (fun j hj => by simp only [CAPACITY]; have := List.mem_range.1 hj; omega)
  rw [Prime5.main, prime5_run_eq, hrun, Res.val_bind, if_pos hargc]
  simp only [Int.toNat_ofNat, hread, Res.val_bind]

/-- Listing mode of `main` for `1 ≤ n ≤ 9592`: the first `n` primes in order. -/
theorem main_listing_primes (m : IntMode) (argc : Int) (g : Buffer) (n : Nat)
    (hargc : 1 < argc) (h1 : 1 ≤ n) (h2 : n ≤ 9592) (fuel : Nat) (hf : 52370 ≤ fuel) :
    Prime5.main m argc g (n : Int) fuel =
      .val (.listing ((List.range n).map fun j => (Nat.nth Nat.Prime j : Int))) := by
  obtain ⟨s, hrun, hmain⟩ := main_listing m argc g n hargc h1 (by omega) fuel hf
  obtain ⟨s', hrun', hcells, -⟩ := run_summary m g n h1 (by omega) fuel hf
  have hs : s' = s := by
    have := hrun'.symm.trans hrun
    exact Res.val.inj this
  subst hs
  rw [hmain]
  congr 2
  apply List.map_congr_left
  intro j hj
  have := List.mem_range.1 hj
  exact hcells j this (by omega)

/-- The library function for `2 ≤ n ≤ 10001`: the `n`-th prime. -/
theorem primes_eq_nth_prime (m : IntMode) (g : Buffer) (n : Nat) (h1 : 2 ≤ n)
    (h2 : n ≤ 10001) (fuel : Nat) (hf : 52370 ≤ fuel) :
    Primelib.primes m g (n : Int) fuel = .val (Nat.nth Nat.Prime (n - 1) : Int) := by
  rcases Nat.lt_or_ge n 3 with hn | hn
  · have : n = 2 := by omega
    subst this
    rw [primes_small m g _ (by norm_num) fuel]
    simp [Nat.nth_prime_one_eq_three]
  · obtain ⟨hb, hfb⟩ := nth_prime_bounds (n := n) h2 hf
    exact primes_spec m g n hn hb fuel hfb

/-- Default mode of `main`: the line carries what the library function returns. -/
theorem main_default (m : IntMode) (argc : Int) (g : Buffer) (n : Int) (fuel : Nat)
    (hargc : argc ≤ 1) (v : Int) (h : Primelib.primes m g n fuel = .val v) :
    Prime5.main m argc g n fuel = .val (.nth v n) := by
  rw [Primelib.primes] at h
  rw [Prime5.main, prime5_run_eq]
  cases hr : Primelib.run m g n fuel with
  | val s =>
    rw [hr, Res.val_bind] at h
    rw [Res.val_bind, if_neg (by omega), h, Res.val_bind]
  | fault f => rw [hr] at h; exact absurd h (by simp [Res.bind])
  | timeout => rw [hr] at h; exact absurd h (by simp [Res.bind])

/-! ### What a returned inner loop has done -/

/-- Outside exact mode the value of an `int` expression is an `int`. -/
theorem norm_range {m : IntMode} (hm : m ≠ .exact) {x y : Int} (h : m.norm x = .val y) :
    INT_MIN ≤ y ∧ y ≤ INT_MAX := by
  cases m
  · exact absurd rfl hm
  · simp only [IntMode.norm, Res.val.injEq] at h
    subst h
    simp only [wrap32, INT_MIN, INT_MAX]
    omega
  · simp only [IntMode.norm] at h
    split at h
    · rename_i hr
      simp only [Res.val.injEq] at h
      subst h
      exact hr
    · exact absurd h (by simp)

/-- Outside wrap-around mode the value of an `int` expression is its
mathematical value. -/
theorem norm_exact {m : IntMode} (hm : m ≠ .wrap) {x y : Int} (h : m.norm x = .val y) :
    y = x := by
  cases m
  · simp only [IntMode.norm, Res.val.injEq] at h
    exact h.symm
  · exact absurd rfl hm
  · simp only [IntMode.norm] at h
    split at h
    · simp only [Res.val.injEq] at h
      exact h.symm
    · exact absurd h (by simp)

theorem bind_eq_val {α β : Type} {r : Res α} {k : α → Res β} {y : β}
    (h : r.bind k = .val y) : ∃ x, r = .val x ∧ k x = .val y := by
  cases r with
  | val x => exact ⟨x, rfl, h⟩
  | fault e => exact absurd h (by simp [Res.bind])
  | timeout => exact absurd h (by simp [Res.bind])

theorem bind_eq_fault {α β : Type} {r : Res α} {k : α → Res β} {e : Fault}
    (h : r.bind k = .fault e) : r = .fault e ∨ ∃ x, r = .val x ∧ k x = .fault e := by
  cases r with
  | val x => exact Or.inr ⟨x, rfl, h⟩
  | fault e' =>
    left
    simpa [Res.bind] using h
  | timeout => exact absurd h (by simp [Res.bind])

/-- A prime branch that returns has kept `i`, has set `count` to the value of
`count + 1`, and has either stored `i` inside the buffer (`i < 100000`) or left
the buffer alone. -/
theorem primeEffect_val {m : IntMode} {s s' : Vars} (h : primeEffect m s = .val s') :
    s'.i = s.i ∧ m.norm (s.count + 1) = .val s'.count ∧
    (s.i < 100000 → ∃ idx, m.norm (s.count - 1) = .val idx ∧ 0 ≤ idx ∧
      idx < (CAPACITY : Int) ∧ s'.primes = s.primes.set idx.toNat s.i) ∧
    (¬ s.i < 100000 → s'.primes = s.primes) := by
  rw [primeEffect] at h
  obtain ⟨buf, hbuf, h⟩ := bind_eq_val h
  obtain ⟨c, hc, h⟩ := bind_eq_val h
  simp only [Res.val.injEq] at h
  subst h
  refine ⟨rfl, hc, ?_, ?_⟩
  · intro hsm
    rw [if_pos hsm] at hbuf
    obtain ⟨idx, hidx, hst⟩ := bind_eq_val hbuf
    refine ⟨idx, hidx, ?_⟩
    rw [store] at hst
    split at hst
    · rename_i hr
      simp only [Res.val.injEq] at hst
      exact ⟨hr.1, hr.2, hst.symm⟩
    · exact absurd hst (by simp)
  · intro hsm
    rw [if_neg hsm] at hbuf
    simp only [Res.val.injEq] at hbuf
    exact hbuf.symm

/-- An inner loop that returns took the composite branch and changed
nothing, or took the prime branch and ran its statements. -/
theorem innerLoop_val {m : IntMode} {s : Vars} {fuel k : Nat} {r : Verdict × Vars}
    (h : Primelib.innerLoop m fuel k s = .val r) :
    (scan m s.primes s.i fuel k = .val .composite ∧ r = (.composite, s)) ∨
    (scan m s.primes s.i fuel k = .val .prime ∧ r.1 = .prime ∧
      primeEffect m s = .val r.2) := by
  rw [scan_bind_effect] at h
  obtain ⟨v, hv, h⟩ := bind_eq_val h
  cases v with
  | composite =>
    left
    simp only [afterVerdict, Res.val.injEq] at h
    exact ⟨hv, h.symm⟩
  | prime =>
    right
    simp only [afterVerdict] at h
    obtain ⟨s', hs', h⟩ := bind_eq_val h
    simp only [Res.val.injEq] at h
    subst h
    exact ⟨hv, rfl, hs'⟩

theorem innerLoop_count_le {m : IntMode} (hm : m ≠ .exact) {s : Vars} {fuel k : Nat}
    {r : Verdict × Vars} (hs : s.count ≤ INT_MAX)
    (h : Primelib.innerLoop m fuel k s = .val r) : r.2.count ≤ INT_MAX := by
  rcases innerLoop_val h with ⟨-, rfl⟩ | ⟨-, -, hp⟩
  · exact hs
  · exact (norm_range hm (primeEffect_val hp).2.1).2

theorem forLoop_never_returns {m : IntMode} (hm : m ≠ .exact) :
    ∀ fuel s, s.count ≤ INT_MAX → ∀ s', Primelib.forLoop m INT_MAX fuel s ≠ .val s' := by
  intro fuel
  induction fuel with
  | zero =>
    intro s hs s'
    rw [Primelib.forLoop, if_pos hs]
    simp
  | succ f ih =>
    intro s hs s' h
    rw [Primelib.forLoop, if_pos hs] at h
    obtain ⟨r, hr, h⟩ := bind_eq_val h
    obtain ⟨i2, -, h⟩ := bind_eq_val h
    exact ih { r.2 with i := i2 } (innerLoop_count_le hm hs hr) s' h

theorem primes_int_max_never_returns {m : IntMode} (hm : m ≠ .exact) (g : Buffer)
    (fuel : Nat) (v : Int) : Primelib.primes m g 2147483647 fuel ≠ .val v := by
  intro h
  rw [Primelib.primes] at h
  obtain ⟨s, hs, -⟩ := bind_eq_val h
  have h3 : (3 : Int) ≤ INT_MAX := by decide
  exact forLoop_never_returns hm fuel { i := 5, count := 3, primes := seed g 2147483647 } h3 s hs

/-! ### No store outside the buffer -/

/-- While the candidates stay at or below the `n`-th prime `P < 2 ^ 29` the
loop meets no fault at all, in any arithmetic mode and for any fuel. -/
theorem forLoop_no_fault (m : IntMode) (g : Buffer) (P : Nat) (hP : Nat.Prime P)
    (hb : P < 2 ^ 29) :
    ∀ fuel s a, Inv g s a → a ≤ P + 2 → ∀ e,
      Primelib.forLoop m ((Nat.count Nat.Prime P : Int) + 1) fuel s ≠ .fault e := by
  intro fuel
  induction fuel with
  | zero =>
    intro s a _ _ e
    rw [Primelib.forLoop]
    split <;> simp
  | succ f ih =>
    intro s a hinv ha e
    by_cases hc : s.count ≤ (Nat.count Nat.Prime P : Int) + 1
    · have haP : a ≤ P := by
        by_contra hgt
        have h1 : Nat.count Nat.Prime P < Nat.count Nat.Prime (P + 1) :=
          Nat.count_strict_mono hP (Nat.lt_succ_self P)
        have h2 : Nat.count Nat.Prime (P + 1) ≤ Nat.count Nat.Prime a :=
          Nat.count_monotone Nat.Prime (by omega)
        rw [hinv.2.2.2.1] at hc
        omega
      obtain ⟨s2, hinv2, hstep⟩ := forLoop_step m g _ f s a hinv (by omega) hc
      rw [hstep]
      exact ih s2 (a + 2) hinv2 (by omega) e
    · rw [Primelib.forLoop, if_neg hc]
      simp

/-- For `n ≤ 10001` the run meets no fault, in any arithmetic mode and for any
fuel. -/
theorem run_no_fault (m : IntMode) (g : Buffer) (n : Int) (hn : n ≤ 10001) (fuel : Nat)
    (e : Fault) : Primelib.run m g n fuel ≠ .fault e := by
  by_cases h2 : n ≤ 2
  · rw [run_small m g n h2 fuel]
    simp
  · obtain ⟨k, rfl⟩ := Int.eq_ofNat_of_zero_le (by omega : 0 ≤ n)
    have hk : k ≤ 10001 := by omega
    obtain ⟨hb, -⟩ := @nth_prime_bounds k 52370 hk le_rfl
    have hcnt : ((Nat.count Nat.Prime (Nat.nth Nat.Prime (k - 1)) : Nat) : Int) + 1 = (k : Int) := by
      rw [Nat.count_nth_of_infinite Nat.infinite_setOf_prime]
      omega
    have h5 := five_le_nth_prime (j := k - 1) (by omega)
    have := forLoop_no_fault m g _ (Nat.prime_nth_prime (k - 1)) hb fuel
      { i := 5, count := 3, primes := seed g k } 5 (inv_init g k (by omega)) (by omega) e
    rw [hcnt] at this
    exact this

/-! ### The claims -/

/-- C1 (the code departs from the claim at `n = 1`): in every arithmetic mode,
for every stack content and every fuel, `primes(1)` returns 3, which is not the
first prime 2.  The loop is not entered and `i - 2 = 5 - 2` is returned. -/
theorem C1_primes_one_returns_three :
    ∀ (m : IntMode) (g : Buffer) (fuel : Nat),
      Primelib.primes m g 1 fuel = .val 3 ∧ Nat.nth Nat.Prime 0 = 2 ∧
        Primelib.primes m g 1 fuel ≠ .val ((Nat.nth Nat.Prime 0 : Nat) : Int) := by
  intro m g fuel
  have h := primes_small m g 1 (by norm_num) fuel
  refine ⟨h, Nat.nth_prime_zero_eq_two, ?_⟩
  rw [h, Nat.nth_prime_zero_eq_two]
  decide

/-- C2 as stated fails: with a zeroed stack and `n = 9593` listing mode prints
9593 values whose last one, cell 9592, is the 0 the stack held, since the
9593rd prime 100003 is not below 100000 and is never stored. -/
theorem C2_counterexample :
    ∃ vs, Prime5.main .checked 2 (fun _ => 0) 9593 52370 = .val (.listing vs) ∧
      vs.length = 9593 ∧ vs[9592]? = some 0 ∧
      ¬ (∀ v ∈ vs, ∃ p : Nat, Nat.Prime p ∧ v = (p : Int)) := by
  obtain ⟨s, hrun, hmain⟩ :=
    main_listing .checked 2 (fun _ => 0) 9593 (by decide) (by decide) (by decide) 52370 le_rfl
  obtain ⟨s', hrun', -, hrest, -⟩ :=
    run_summary .checked (fun _ => 0) 9593 (by decide) (by decide) 52370 le_rfl
  have hs : s' = s := Res.val.inj (hrun'.symm.trans hrun)
  subst hs
  have hcell : s'.primes 9592 = 0 := hrest 9592 le_rfl
  have hget : ((List.range 9593).map s'.primes)[9592]? = some 0 := by
    rw [List.getElem?_map, List.getElem?_range (by decide), Option.map_some', hcell]
  refine ⟨_, hmain, by simp, hget, ?_⟩
  intro hall
  obtain ⟨p, hp, h0⟩ := hall 0 (List.getElem?_mem hget)
  have : p = 0 := by exact_mod_cast h0.symm
  exact Nat.not_prime_zero (this ▸ hp)

/-- C2 (amended): for `1 ≤ n ≤ 9592`, in every arithmetic mode and for every
stack content, listing mode of `main` prints exactly `n` values, strictly
increasing, each a prime; they are the first `n` primes. -/
theorem C2_listing_increasing_primes (m : IntMode) (argc : Int) (g : Buffer) (n : Int)
    (fuel : Nat) (hargc : 1 < argc) (h1 : 1 ≤ n) (h2 : n ≤ 9592) (hf : 52370 ≤ fuel) :
    ∃ vs, Prime5.main m argc g n fuel = .val (.listing vs) ∧
      (vs.length : Int) = n ∧ vs.Pairwise (fun x y => x < y) ∧
      (∀ v ∈ vs, ∃ p : Nat, Nat.Prime p ∧ v = (p : Int)) ∧
      vs = (List.range n.toNat).map fun j => (Nat.nth Nat.Prime j : Int) := by
  obtain ⟨k, rfl⟩ := Int.eq_ofNat_of_zero_le (by omega : 0 ≤ n)
  refine ⟨_, main_listing_primes m argc g k hargc (by omega) (by omega) fuel hf, ?_, ?_, ?_, ?_⟩
  · simp
  · rw [List.pairwise_map]
    refine List.Pairwise.imp ?_ (List.pairwise_lt_range k)
    intro a b hab
    exact_mod_cast (Nat.nth_lt_nth Nat.infinite_setOf_prime).2 hab
  · intro v hv
    obtain ⟨j, -, rfl⟩ := List.mem_map.1 hv
    exact ⟨_, Nat.prime_nth_prime j, rfl⟩
  · simp

/-- Instance of the amended C2 at `n = 5` under wrap-around arithmetic, the
stack holding 7 in every cell. -/
theorem C2_listing_witness :
    (1 : Int) < 2 ∧ (1 : Int) ≤ 5 ∧ (5 : Int) ≤ 9592 ∧ 52370 ≤ 52370 ∧
    ∃ vs, Prime5.main .wrap 2 (fun _ => 7) 5 52370 = .val (.listing vs) ∧
      (vs.length : Int) = 5 ∧ vs.Pairwise (fun x y => x < y) ∧
      (∀ v ∈ vs, ∃ p : Nat, Nat.Prime p ∧ v = (p : Int)) ∧
      vs = (List.range (5 : Int).toNat).map fun j => (Nat.nth Nat.Prime j : Int) :=
  ⟨by decide, by decide, by decide, by decide,
    C2_listing_increasing_primes .wrap 2 (fun _ => 7) 5 52370
      (by decide) (by decide) (by decide) (by decide)⟩

/-- C3 as stated fails: generate for `n = 9593` on a stack holding 0 and for
`n + 1 = 9594` on a stack holding 1.  Cell 9592 is below `n` and is written by
neither run, so the two sequences differ there. -/
theorem C3_counterexample :
    ∃ s1 s2, Prime5.run .checked (fun _ => 0) 9593 52370 = .val s1 ∧
      Prime5.run .checked (fun _ => 1) 9594 52370 = .val s2 ∧
      s1.primes 9592 ≠ s2.primes 9592 := by
  obtain ⟨s1, hrun1, -, hrest1, -⟩ :=
    run_summary .checked (fun _ => 0) 9593 (by decide) (by decide) 52370 le_rfl
  obtain ⟨s2, hrun2, -, hrest2, -⟩ :=
    run_summary .checked (fun _ => 1) 9594 (by decide) (by decide) 52370 le_rfl
  refine ⟨s1, s2, by rw [prime5_run_eq]; exact hrun1, by rw [prime5_run_eq]; exact hrun2, ?_⟩
  rw [hrest1 9592 le_rfl, hrest2 9592 le_rfl]
  decide

/-- C3 (amended): for `1 ≤ n ≤ 10000`, whatever the two stacks held, every
cell `j < n` that is written (`j < 9592`) is the same after generating for `n`
and for `n + 1`; for `n ≤ 9591` the listing printed for `n` is a prefix of the
listing printed for `n + 1`. -/
theorem C3_prefix_of_next (m : IntMode) (g1 g2 : Buffer) (n : Int) (f1 f2 : Nat)
    (h1 : 1 ≤ n) (h2 : n ≤ 10000) (hf1 : 52370 ≤ f1) (hf2 : 52370 ≤ f2) :
    (∃ s1 s2, Prime5.run m g1 n f1 = .val s1 ∧ Prime5.run m g2 (n + 1) f2 = .val s2 ∧
      ∀ j : Nat, (j : Int) < n → j < 9592 → s1.primes j = s2.primes j) ∧
    (n ≤ 9591 → ∃ vs ws, Prime5.main m 2 g1 n f1 = .val (.listing vs) ∧
      Prime5.main m 2 g2 (n + 1) f2 = .val (.listing ws) ∧ vs <+: ws) := by
  obtain ⟨k, rfl⟩ := Int.eq_ofNat_of_zero_le (by omega : 0 ≤ n)
  have hk1 : 1 ≤ k := by omega
  have hk2 : k ≤ 10000 := by omega
  constructor
  · obtain ⟨s1, hrun1, hc1, -, -⟩ := run_summary m g1 k hk1 (by omega) f1 hf1
    obtain ⟨s2, hrun2, hc2, -, -⟩ := run_summary m g2 (k + 1) (by omega) (by omega) f2 hf2
    refine ⟨s1, s2, by rw [prime5_run_eq]; exact hrun1,
      by rw [prime5_run_eq]; exact_mod_cast hrun2, ?_⟩
    intro j hj hj2
    rw [hc1 j (by omega) hj2, hc2 j (by omega) hj2]
  · intro h3
    have hk3 : k ≤ 9591 := by omega
    have hv := main_listing_primes m 2 g1 k (by decide) hk1 (by omega) f1 hf1
    have hw := main_listing_primes m 2 g2 (k + 1) (by decide) (by omega) (by omega) f2 hf2
    rw [List.range_succ, List.map_append] at hw
    exact ⟨_, _, hv, by exact_mod_cast hw, List.prefix_append _ _⟩

/-- Instance of the amended C3 at `n = 4`, exact arithmetic, two different
stack contents. -/
theorem C3_prefix_witness :
    (1 : Int) ≤ 4 ∧ (4 : Int) ≤ 10000 ∧ 52370 ≤ 52370 ∧ 52370 ≤ 60000 ∧
    ((∃ s1 s2, Prime5.run .exact (fun _ => 0) 4 52370 = .val s1 ∧
        Prime5.run .exact (fun j => (j : Int)) (4 + 1) 60000 = .val s2 ∧
        ∀ j : Nat, (j : Int) < 4 → j < 9592 → s1.primes j = s2.primes j) ∧
      ((4 : Int) ≤ 9591 → ∃ vs ws, Prime5.main .exact 2 (fun _ => 0) 4 52370 = .val (.listing vs) ∧
        Prime5.main .exact 2 (fun j => (j : Int)) (4 + 1) 60000 = .val (.listing ws) ∧
        vs <+: ws)) :=
  ⟨by decide, by decide, by decide, by decide,
    C3_prefix_of_next .exact (fun _ => 0) (fun j => (j : Int)) 4 52370 60000
      (by decide) (by decide) (by decide) (by decide)⟩

/-- C4 as stated fails at both ends of the range: for `n = 1` the scalar is 3
while `primes[0]` is 2, and for `n = 9593` on a zeroed stack the scalar is a
nonzero value while `primes[9592]` was never written and still holds 0. -/
theorem C4_counterexample :
    (∃ s, Primelib.primes .checked (fun _ => 0) 1 52370 = .val 3 ∧
      Prime5.run .checked (fun _ => 0) 1 52370 = .val s ∧ s.primes 0 = 2) ∧
    (∃ v s, Primelib.primes .checked (fun _ => 0) 9593 52370 = .val v ∧
      Prime5.run .checked (fun _ => 0) 9593 52370 = .val s ∧
      s.primes 9592 = 0 ∧ v ≠ s.primes 9592) := by
  constructor
  · refine ⟨{ i := 5, count := 3, primes := seed (fun _ => 0) 1 },
      primes_small _ _ 1 (by decide) _, ?_, ?_⟩
    · rw [prime5_run_eq]; exact run_small _ _ 1 (by decide) _
    · rfl
  · obtain ⟨s, hrun, -, hrest, -⟩ :=
      run_summary .checked (fun _ => 0) 9593 (by decide) (by decide) 52370 le_rfl
    have hv := primes_eq_nth_prime .checked (fun _ => 0) 9593 (by decide) (by decide) 52370 le_rfl
    have hcell : s.primes 9592 = 0 := hrest 9592 le_rfl
    refine ⟨_, s, hv, by rw [prime5_run_eq]; exact hrun, hcell, ?_⟩
    rw [hcell]
    have := (Nat.prime_nth_prime (9593 - 1)).pos
    exact_mod_cast this.ne'

/-- C4 (amended): for `2 ≤ n ≤ 9592`, in every arithmetic mode and whatever
the stacks held, the value `primes(n)` returns is the value the default line
of `main` prints and is the buffer entry `primes[n-1]` when the loop is left. -/
theorem C4_scalar_is_last_entry (m : IntMode) (argc : Int) (g g2 : Buffer) (n : Int)
    (fuel : Nat) (hargc : argc ≤ 1) (h1 : 2 ≤ n) (h2 : n ≤ 9592) (hf : 52370 ≤ fuel) :
    ∃ v s, Primelib.primes m g n fuel = .val v ∧
      Prime5.main m argc g2 n fuel = .val (.nth v n) ∧
      Prime5.run m g2 n fuel = .val s ∧ s.primes (n - 1).toNat = v := by
  obtain ⟨k, rfl⟩ := Int.eq_ofNat_of_zero_le (by omega : 0 ≤ n)
  have hk1 : 2 ≤ k := by omega
  have hk2 : k ≤ 9592 := by omega
  obtain ⟨s, hrun, hcells, -, -⟩ := run_summary m g2 k (by omega) (by omega) fuel hf
  have hv := primes_eq_nth_prime m g k hk1 (by omega) fuel hf
  have hv2 := primes_eq_nth_prime m g2 k hk1 (by omega) fuel hf
  refine ⟨_, s, hv, main_default m argc g2 k fuel hargc _ hv2,
    by rw [prime5_run_eq]; exact hrun, ?_⟩
  have hidx : ((k : Int) - 1).toNat = k - 1 := by omega
  rw [hidx]
  exact hcells (k - 1) (by omega) (by omega)

/-- Instance of the amended C4 at `n = 6`, checked arithmetic. -/
theorem C4_scalar_witness :
    (1 : Int) ≤ 1 ∧ (2 : Int) ≤ 6 ∧ (6 : Int) ≤ 9592 ∧ 52370 ≤ 52370 ∧
    ∃ v s, Primelib.primes .checked (fun _ => 0) 6 52370 = .val v ∧
      Prime5.main .checked 1 (fun _ => 9) 6 52370 = .val (.nth v 6) ∧
      Prime5.run .checked (fun _ => 9) 6 52370 = .val s ∧ s.primes ((6 : Int) - 1).toNat = v :=
  ⟨by decide, by decide, by decide, by decide,
    C4_scalar_is_last_entry .checked 1 (fun _ => 0) (fun _ => 9) 6 52370
      (by decide) (by decide) (by decide) (by decide)⟩

/-- C5: in every arithmetic mode and for every stack content, listing mode
prints `[2]` for `n = 1`, `[2, 3]` for `n = 2` and `[2, 3, 5, 7, 11]` for
`n = 5`, and the scalar result, returned by `primes` and printed by the default
line of `main`, is 13 for `n = 6` and 29 for `n = 10`. -/
theorem C5_examples (m : IntMode) (g : Buffer) (fuel : Nat) :
    Prime5.main m 2 g 1 fuel = .val (.listing [2]) ∧
    Prime5.main m 2 g 2 fuel = .val (.listing [2, 3]) ∧
    Prime5.main m 2 g 5 (4 + fuel) = .val (.listing [2, 3, 5, 7, 11]) ∧
    Primelib.primes m g 6 (5 + fuel) = .val 13 ∧
    Primelib.primes m g 10 (13 + fuel) = .val 29 ∧
    Prime5.main m 1 g 6 (5 + fuel) = .val (.nth 13 6) ∧
    Prime5.main m 1 g 10 (13 + fuel) = .val (.nth 29 10) := by
  refine ⟨?_, ?_, main_mono (by cases m <;> rfl) fuel, primes_mono (by cases m <;> rfl) fuel,
    primes_mono (by cases m <;> rfl) fuel, main_mono (by cases m <;> rfl) fuel,
    main_mono (by cases m <;> rfl) fuel⟩
  · have := @main_mono m 2 g 1 0 _ (by cases m <;> rfl) fuel
    rwa [Nat.zero_add] at this
  · have := @main_mono m 2 g 2 0 _ (by cases m <;> rfl) fuel
    rwa [Nat.zero_add] at this

/-- C6 as stated fails: for `n = 2147483647`, the largest `int`, the library
function never returns, whatever the stack held and however long it runs,
both when overflow is undefined and when it wraps around.  An `int` `count` is
never above `n`, so `count <= n` never fails. -/
theorem C6_counterexample :
    ¬ ∃ (g : Buffer) (fuel : Nat) (v : Int),
      Primelib.primes .checked g 2147483647 fuel = .val v ∨
      Primelib.primes .wrap g 2147483647 fuel = .val v := by
  rintro ⟨g, fuel, v, h | h⟩
  · exact primes_int_max_never_returns (by decide) g fuel v h
  · exact primes_int_max_never_returns (by decide) g fuel v h

/-- C6 (amended): for every `n ≤ 10000`, in every arithmetic mode and whatever
the stack held, the loop is left with `count > n` after at most 52370
executions of its body and `primes(n)` returns a value; and at every loop head
with a candidate below `2 ^ 29` the inner scan reaches a verdict within the
stored primes. -/
theorem C6_terminates (m : IntMode) (g : Buffer) (n : Int) (fuel : Nat)
    (hn : n ≤ 10000) (hf : 52370 ≤ fuel) :
    (∃ s v, Primelib.run m g n fuel = .val s ∧ n < s.count ∧
      Primelib.primes m g n fuel = .val v) ∧
    (∀ s a, Inv g s a → a < 2 ^ 29 →
      ∃ r, Primelib.innerLoop m CAPACITY 1 s = .val r ∧
        scan m s.primes s.i CAPACITY 1 = .val r.1) := by
  constructor
  · by_cases h1 : n ≤ 2
    · exact ⟨_, 3, run_small m g n h1 fuel, by simp only; omega, primes_small m g n h1 fuel⟩
    · obtain ⟨k, rfl⟩ := Int.eq_ofNat_of_zero_le (by omega : 0 ≤ n)
      obtain ⟨s, hrun, -, -, -, hcnt⟩ := run_summary m g k (by omega) (by omega) fuel hf
      exact ⟨s, _, hrun, hcnt, primes_eq_nth_prime m g k (by omega) (by omega) fuel hf⟩
  · intro s a hinv ha
    have hs := scan_spec m s.primes a hinv.2.1 hinv.2.2.1 ha
      (fun j _ hj h46 => hinv.2.2.2.2.1 j hj (by omega))
    rw [← hinv.1] at hs
    refine ⟨_, innerLoop_spec m g s a hinv ha, ?_⟩
    rw [hs]
    split <;> rfl

/-- Instance of the amended C6 at `n = 10000`, wrap-around arithmetic. -/
theorem C6_terminates_witness :
    (10000 : Int) ≤ 10000 ∧ 52370 ≤ 52370 ∧
    ((∃ s v, Primelib.run .wrap (fun _ => 0) 10000 52370 = .val s ∧ 10000 < s.count ∧
        Primelib.primes .wrap (fun _ => 0) 10000 52370 = .val v) ∧
      (∀ s a, Inv (fun _ => 0) s a → a < 2 ^ 29 →
        ∃ r, Primelib.innerLoop .wrap CAPACITY 1 s = .val r ∧
          scan .wrap s.primes s.i CAPACITY 1 = .val r.1)) :=
  ⟨by decide, by decide,
    C6_terminates .wrap (fun _ => 0) 10000 52370 (by decide) (by decide)⟩

/-- C8: for every `n ≤ 0`, in every arithmetic mode: listing mode prints
nothing, the loop is left without one execution of its body (fuel 0) and with
the buffer untouched, `primes(n)` returns 3, and the listing and the value are
those of `n = 0`. -/
theorem C8_nonpositive (m : IntMode) (argc : Int) (g : Buffer) (n : Int) (fuel : Nat)
    (hn : n ≤ 0) (hargc : 1 < argc) :
    Prime5.main m argc g n fuel = .val (.listing []) ∧
    Prime5.run m g n 0 = .val { i := 5, count := 3, primes := g } ∧
    Primelib.run m g n 0 = .val { i := 5, count := 3, primes := g } ∧
    Primelib.primes m g n fuel = .val 3 ∧
    Prime5.main m 1 g n fuel = .val (.nth 3 n) ∧
    Primelib.primes m g n fuel = Primelib.primes m g 0 fuel ∧
    Prime5.main m argc g n fuel = Prime5.main m argc g 0 fuel := by
  have hseed : seed g n = g := by
    have : ¬ n ≥ 1 := by omega
    simp [seed, this]
  have hrun : ∀ f, Primelib.run m g n f = .val { i := 5, count := 3, primes := g } := by
    intro f
    rw [run_small m g n (by omega) f, hseed]
  have hrun0 : ∀ f, Primelib.run m g 0 f = .val { i := 5, count := 3, primes := g } := by
    intro f
    rw [run_small m g 0 (by omega) f]
    rfl
  have hlist : Prime5.main m argc g n fuel = .val (.listing []) := by
    rw [Prime5.main, prime5_run_eq, hrun, Res.val_bind, if_pos hargc]
    have : n.toNat = 0 := by omega
    rw [this]
    rfl
  have hlist0 : Prime5.main m argc g 0 fuel = .val (.listing []) := by
    rw [Prime5.main, prime5_run_eq, hrun0, Res.val_bind, if_pos hargc]
    rfl
  have hp := primes_small m g n (by omega) fuel
  refine ⟨hlist, ?_, hrun 0, hp, main_default m 1 g n fuel le_rfl 3 hp, ?_, ?_⟩
  · rw [prime5_run_eq]; exact hrun 0
  · rw [hp, primes_small m g 0 (by omega) fuel]
  · rw [hlist, hlist0]

/-- Instance of C8 at `n = -7`. -/
theorem C8_nonpositive_witness :
    (-7 : Int) ≤ 0 ∧ (1 : Int) < 2 ∧
    (Prime5.main .checked 2 (fun _ => 4) (-7) 0 = .val (.listing []) ∧
    Prime5.run .checked (fun _ => 4) (-7) 0 = .val { i := 5, count := 3, primes := fun _ => 4 } ∧
    Primelib.run .checked (fun _ => 4) (-7) 0 =
      .val { i := 5, count := 3, primes := fun _ => 4 } ∧
    Primelib.primes .checked (fun _ => 4) (-7) 0 = .val 3 ∧
    Prime5.main .checked 1 (fun _ => 4) (-7) 0 = .val (.nth 3 (-7)) ∧
    Primelib.primes .checked (fun _ => 4) (-7) 0 = Primelib.primes .checked (fun _ => 4) 0 0 ∧
    Prime5.main .checked 2 (fun _ => 4) (-7) 0 = Prime5.main .checked 2 (fun _ => 4) 0 0) :=
  ⟨by decide, by decide, C8_nonpositive .checked 2 (fun _ => 4) (-7) 0 (by decide) (by decide)⟩

/-- C9 as stated fails: for `n = 10001`, above the capacity, `primes` reports
no error; in every arithmetic mode and for every stack content it returns
104743, the 10001st prime. -/
theorem C9_counterexample :
    Primelib.primes .checked (fun _ => 0) 10001 52370 = .val 104743 ∧
    Primelib.primes .wrap (fun _ => 0) 10001 52370 = .val 104743 ∧
    Primelib.primes .exact (fun _ => 0) 10001 52370 = .val 104743 ∧
    Nat.nth Nat.Prime 10000 = 104743 := by
  have h : ∀ m, Primelib.primes m (fun _ => 0) 10001 52370 = .val 104743 := by
    intro m
    have := primes_eq_nth_prime m (fun _ => 0) 10001 (by decide) (by decide) 52370 le_rfl
    rwa [show (10001 : Nat) - 1 = 10000 from rfl, nth_prime_10000] at this
  exact ⟨h _, h _, h _, nth_prime_10000⟩

/-- C9 (amended): for every `n > 10000` whose `n`-th prime is below `2 ^ 29`,
`primes(n)` reports no error: given one execution of the loop body for each
odd number from 5 to that prime, it returns the `n`-th prime, in every
arithmetic mode and for every stack content. -/
theorem C9_above_capacity_returns_prime (m : IntMode) (g : Buffer) (n : Nat) (fuel : Nat)
    (hn : 10000 < n) (hb : Nat.nth Nat.Prime (n - 1) < 2 ^ 29)
    (hf : Nat.nth Nat.Prime (n - 1) ≤ 2 * fuel + 3) :
    Primelib.primes m g (n : Int) fuel = .val (Nat.nth Nat.Prime (n - 1) : Int) :=
  primes_spec m g n (by omega) hb fuel hf

/-- Instance of the amended C9 at `n = 10001`. -/
theorem C9_above_capacity_witness :
    10000 < 10001 ∧ Nat.nth Nat.Prime (10001 - 1) < 2 ^ 29 ∧
    Nat.nth Nat.Prime (10001 - 1) ≤ 2 * 52370 + 3 ∧
    Primelib.primes .checked (fun _ => 0) ((10001 : Nat) : Int) 52370 =
      .val (Nat.nth Nat.Prime (10001 - 1) : Int) :=
  ⟨by decide, by rw [show 10001 - 1 = 10000 from rfl, nth_prime_10000]; norm_num,
    by rw [show 10001 - 1 = 10000 from rfl, nth_prime_10000],
    C9_above_capacity_returns_prime .checked (fun _ => 0) 10001 52370 (by decide)
      (by rw [show 10001 - 1 = 10000 from rfl, nth_prime_10000]; norm_num)
      (by rw [show 10001 - 1 = 10000 from rfl, nth_prime_10000])⟩

/-- C10: let `a ≥ 5` be odd and let the cells `1..k` of the buffer hold the
odd primes below `a` in increasing order, all inside the buffer.  Then the
scan from cell 1 reaches a verdict; it is `prime` exactly when `a` is prime
and `composite` exactly when `a` is not; and the inner loop of either copy is
that scan followed by the statements of the branch taken. -/
theorem C10_trial_division_verdict (m : IntMode) (s : Vars) (a : Nat) (hi : s.i = a)
    (ha5 : 5 ≤ a) (hodd : a % 2 = 1) (hfit : Nat.count Nat.Prime a ≤ CAPACITY)
    (hcells : ∀ j, 1 ≤ j → Nat.nth Nat.Prime j < a → s.primes j = Nat.nth Nat.Prime j) :
    ∃ v, scan m s.primes s.i CAPACITY 1 = .val v ∧
      (v = .prime ↔ Nat.Prime a) ∧ (v = .composite ↔ ¬ Nat.Prime a) ∧
      Primelib.innerLoop m CAPACITY 1 s = afterVerdict m s v ∧
      Prime5.innerLoop m CAPACITY 1 s = afterVerdict m s v := by
  have hle : a ≤ 104743 := by
    have := (Nat.count_le_iff_le_nth Nat.infinite_setOf_prime).1 hfit
    simp only [CAPACITY] at this
    rwa [nth_prime_10000] at this
  have hs := scan_spec m s.primes a ha5 hodd (by norm_num; omega)
    (fun j hj hlt _ => hcells j hj hlt)
  rw [← hi] at hs
  refine ⟨_, hs, ?_, ?_, ?_, ?_⟩
  · by_cases hp : Nat.Prime a <;> simp [hp]
  · by_cases hp : Nat.Prime a <;> simp [hp]
  · rw [scan_bind_effect, hs, Res.val_bind]
  · rw [prime5_innerLoop_eq, scan_bind_effect, hs, Res.val_bind]

/-- The cells 1 and 2 holding 3 and 5 are the odd primes below 7. -/
theorem cells_below_seven (j : Nat) (hj : 1 ≤ j) (hlt : Nat.nth Nat.Prime j < 7) :
    (if j = 1 then (3 : Int) else 5) = Nat.nth Nat.Prime j := by
  have h3 : j < 3 := by
    by_contra hge
    have h : Nat.nth Nat.Prime 2 < Nat.nth Nat.Prime j :=
      (Nat.nth_lt_nth Nat.infinite_setOf_prime).2 (by omega)
    have hodd := nth_prime_odd (j := j) hj
    rw [nth_prime_two] at h
    omega
  have : j = 1 ∨ j = 2 := by omega
  rcases this with rfl | rfl
  · simp [Nat.nth_prime_one_eq_three]
  · simp [nth_prime_two]

/-- Instance of C10 at the candidate 7 with the cells 1 and 2 holding 3 and 5. -/
theorem C10_trial_division_witness :
    5 ≤ 7 ∧ 7 % 2 = 1 ∧ Nat.count Nat.Prime 7 ≤ CAPACITY ∧
    (∀ j, 1 ≤ j → Nat.nth Nat.Prime j < 7 →
      (if j = 1 then (3 : Int) else 5) = Nat.nth Nat.Prime j) ∧
    ∃ v, scan .checked (fun j => if j = 1 then 3 else 5) 7 CAPACITY 1 = .val v ∧
      (v = .prime ↔ Nat.Prime 7) ∧ (v = .composite ↔ ¬ Nat.Prime 7) ∧
      Primelib.innerLoop .checked CAPACITY 1
          { i := 7, count := 4, primes := fun j => if j = 1 then 3 else 5 } =
        afterVerdict .checked
          { i := 7, count := 4, primes := fun j => if j = 1 then 3 else 5 } v ∧
      Prime5.innerLoop .checked CAPACITY 1
          { i := 7, count := 4, primes := fun j => if j = 1 then 3 else 5 } =
        afterVerdict .checked
          { i := 7, count := 4, primes := fun j => if j = 1 then 3 else 5 } v :=
  ⟨by decide, by decide, le_trans (Nat.count_le (p := Nat.Prime)) (by decide),
    cells_below_seven,
    C10_trial_division_verdict .checked
      { i := 7, count := 4, primes := fun j => if j = 1 then 3 else 5 } 7 rfl
      (by decide) (by decide)
      (le_trans (Nat.count_le (p := Nat.Prime)) (by decide)) cells_below_seven⟩

/-! ### Passes of the loop body and loop heads -/

theorem forLoop_succ (m : IntMode) (n : Int) (fuel : Nat) (s : Vars) :
    Primelib.forLoop m n (fuel + 1) s =
      if s.count ≤ n then (loopBody m s).bind (Primelib.forLoop m n fuel) else .val s := by
  rw [Primelib.forLoop]
  split
  · simp only [loopBody, Res.bind_assoc, Res.val_bind]
  · rfl

/-- A pass of the body at a loop head with candidate `a < 2 ^ 29`, in every
arithmetic mode. -/
theorem loopBody_spec (m : IntMode) (g : Buffer) (s : Vars) (a : Nat) (hinv : Inv g s a)
    (ha : a < 2 ^ 29) :
    loopBody m s = .val (if Nat.Prime a then { primeBranch s with i := s.i + 2 }
      else { s with i := s.i + 2 }) := by
  have hi := hinv.1
  have hnorm : m.norm (s.i + 2) = .val (s.i + 2) := by
    norm_num at ha
    apply norm_val <;> rw [hi] <;> simp only [INT_MIN, INT_MAX] <;> omega
  rw [loopBody, innerLoop_spec m g s a hinv ha]
  by_cases hp : Nat.Prime a
  · rw [if_pos hp, if_pos hp, Res.val_bind]
    have : (primeBranch s).i = s.i := rfl
    simp only [this, hnorm, Res.val_bind]
  · rw [if_neg hp, if_neg hp, Res.val_bind]
    simp only [hnorm, Res.val_bind]

theorem loopBody_inv (m : IntMode) (g : Buffer) (s s' : Vars) (a : Nat) (hinv : Inv g s a)
    (ha : a < 2 ^ 29) (h : loopBody m s = .val s') : Inv g s' (a + 2) := by
  rw [loopBody_spec m g s a hinv ha, Res.val.injEq] at h
  subst h
  by_cases hp : Nat.Prime a
  · rw [if_pos hp]; exact inv_next_prime hinv hp
  · rw [if_neg hp]; exact inv_next_composite hinv hp

/-- The variables a returning loop leaves with are a loop head. -/
theorem head_of_forLoop (m : IntMode) (n : Int) (s0 : Vars) :
    ∀ fuel s sf, Head m n s0 s → Primelib.forLoop m n fuel s = .val sf →
      Head m n s0 sf ∧ ¬ sf.count ≤ n := by
  intro fuel
  induction fuel with
  | zero =>
    intro s sf hs h
    rw [Primelib.forLoop] at h
    split at h
    · exact absurd h (by simp)
    · rename_i hc
      rw [Res.val.injEq] at h
      subst h
      exact ⟨hs, hc⟩
  | succ f ih =>
    intro s sf hs h
    rw [forLoop_succ] at h
    split at h
    · rename_i hc
      obtain ⟨s', hs', h⟩ := bind_eq_val h
      exact ih s' sf (Head.next hs hc hs') h
    · rename_i hc
      rw [Res.val.injEq] at h
      subst h
      exact ⟨hs, hc⟩

/-- Every loop head is passed by the loop: from the start, some number of
passes of the body leads to it. -/
theorem forLoop_of_head (m : IntMode) (n : Int) (s0 s : Vars) (h : Head m n s0 s) :
    ∃ k, ∀ fuel, Primelib.forLoop m n (k + fuel) s0 = Primelib.forLoop m n fuel s := by
  induction h with
  | first => exact ⟨0, fun fuel => by rw [Nat.zero_add]⟩
  | next _ hc hb ih =>
    obtain ⟨k, hk⟩ := ih
    refine ⟨k + 1, fun fuel => ?_⟩
    have e : k + 1 + fuel = k + (fuel + 1) := by omega
    rw [e, hk (fuel + 1), forLoop_succ, if_pos hc, hb, Res.val_bind]

/-- A pass of the body that returns, in exact or ISO C arithmetic: `i` has
advanced by 2 and `count` is unchanged or one more. -/
theorem loopBody_val {m : IntMode} (hm : m ≠ .wrap) {s s' : Vars}
    (h : loopBody m s = .val s') :
    s'.i = s.i + 2 ∧ s.count ≤ s'.count ∧ s'.count ≤ s.count + 1 := by
  rw [loopBody] at h
  obtain ⟨r, hr, h⟩ := bind_eq_val h
  obtain ⟨i2, hi2, h⟩ := bind_eq_val h
  rw [Res.val.injEq] at h
  subst h
  have hi := norm_exact hm hi2
  rcases innerLoop_val hr with ⟨-, rfl⟩ | ⟨-, -, hp⟩
  · exact ⟨hi, le_rfl, by simp only; omega⟩
  · obtain ⟨h1, h2, -, -⟩ := primeEffect_val hp
    have hc := norm_exact hm h2
    refine ⟨by simp only; rw [hi, h1], by simp only; omega, by simp only; omega⟩

/-! ### The claims, continued -/

/-- C11 as stated fails: the prime branch run with `i = 100003` and
`count = 9593` stores nothing although `count-1 = 9592` is below the capacity
10000, and it does increment `count`; and the run for `n = 9593` on a zeroed
stack confirms its 9593rd prime, a value of at least 100000, and leaves with
cell 9592 still holding the 0 of the stack. -/
theorem C11_counterexample :
    (∃ s', primeEffect .checked { i := 100003, count := 9593, primes := fun _ => 0 } = .val s' ∧
      (9593 : Int) - 1 < (CAPACITY : Int) ∧ s'.count = 9594 ∧ s'.primes 9592 = 0) ∧
    (∃ s, Primelib.run .checked (fun _ => 0) 9593 52370 = .val s ∧ 9593 < s.count ∧
      100000 ≤ s.i - 2 ∧ s.primes 9592 = 0) := by
  constructor
  · exact ⟨{ i := 100003, count := 9594, primes := fun _ => 0 }, rfl, by decide, rfl, rfl⟩
  · obtain ⟨s, hrun, -, hrest, hi, hc⟩ :=
      run_summary .checked (fun _ => 0) 9593 (by decide) (by decide) 52370 le_rfl
    refine ⟨s, hrun, hc, ?_, hrest 9592 le_rfl⟩
    rw [hi (by decide)]
    have := le_nth_prime_of_9592_le (j := 9593 - 1) (by decide)
    omega

/-- C11 (amended): at a loop head whose candidate `i` is prime (below
`2 ^ 29`), in every arithmetic mode and in both copies, the inner loop takes
the prime branch, keeps `i` and increments `count` by exactly 1; when
`i < 100000` it stores `i` at `primes[count-1]`, an index inside the buffer,
and changes no other cell; when `i ≥ 100000` it stores nothing. -/
theorem C11_prime_step (m : IntMode) (g : Buffer) (s : Vars) (a : Nat) (hinv : Inv g s a)
    (ha : a < 2 ^ 29) (hp : Nat.Prime a) :
    ∃ s', Primelib.innerLoop m CAPACITY 1 s = .val (.prime, s') ∧
      Prime5.innerLoop m CAPACITY 1 s = .val (.prime, s') ∧
      s'.i = s.i ∧ s'.count = s.count + 1 ∧
      (s.i < 100000 → 0 ≤ s.count - 1 ∧ s.count - 1 < (CAPACITY : Int) ∧
        s'.primes = s.primes.set (s.count - 1).toNat s.i) ∧
      (100000 ≤ s.i → s'.primes = s.primes) := by
  have h := innerLoop_spec m g s a hinv ha
  rw [if_pos hp] at h
  refine ⟨primeBranch s, h, by rw [prime5_innerLoop_eq]; exact h, rfl, rfl, ?_, ?_⟩
  · intro hsm
    have hsm2 : a < 100000 := by rw [hinv.1] at hsm; exact_mod_cast hsm
    have := count_lt_capacity hsm2
    refine ⟨?_, ?_, ?_⟩
    · rw [hinv.2.2.2.1]; omega
    · rw [hinv.2.2.2.1]; simp only [CAPACITY]; omega
    · simp only [primeBranch, if_pos hsm]
  · intro hbig
    simp only [primeBranch, if_neg (by omega : ¬ s.i < 100000)]

/-- Instance of the amended C11 at the first loop head of a run for `n = 3`:
the candidate 5. -/
theorem C11_prime_step_witness :
    Inv (fun _ => 0) (start (fun _ => 0) 3) 5 ∧ 5 < 2 ^ 29 ∧ Nat.Prime 5 ∧
    ∃ s', Primelib.innerLoop .checked CAPACITY 1 (start (fun _ => 0) 3) = .val (.prime, s') ∧
      Prime5.innerLoop .checked CAPACITY 1 (start (fun _ => 0) 3) = .val (.prime, s') ∧
      s'.i = (start (fun _ => 0) 3).i ∧ s'.count = (start (fun _ => 0) 3).count + 1 ∧
      ((start (fun _ => 0) 3).i < 100000 → 0 ≤ (start (fun _ => 0) 3).count - 1 ∧
        (start (fun _ => 0) 3).count - 1 < (CAPACITY : Int) ∧
        s'.primes = (start (fun _ => 0) 3).primes.set
          ((start (fun _ => 0) 3).count - 1).toNat (start (fun _ => 0) 3).i) ∧
      (100000 ≤ (start (fun _ => 0) 3).i → s'.primes = (start (fun _ => 0) 3).primes) :=
  ⟨inv_init _ 3 (by decide), by norm_num, by norm_num,
    C11_prime_step .checked (fun _ => 0) (start (fun _ => 0) 3) 5 (inv_init _ 3 (by decide))
      (by norm_num) (by norm_num)⟩

/-- C12: in every arithmetic mode and from any variables, a pass of the loop
body whose scan ends on a stored value dividing `i` leaves `count` and every
cell as they were, in both copies, and only replaces `i` by the value of
`i + 2`.  In exact and ISO C arithmetic every pass that returns has advanced
`i` by 2 and has left `count` unchanged or one more; at a loop head with a
candidate below `2 ^ 29` this holds in every mode, the pass does return, and
for a composite candidate `count` and the buffer are unchanged. -/
theorem C12_composite_step (m : IntMode) (g : Buffer) (s : Vars) :
    (scan m s.primes s.i CAPACITY 1 = .val .composite →
      Primelib.innerLoop m CAPACITY 1 s = .val (.composite, s) ∧
      Prime5.innerLoop m CAPACITY 1 s = .val (.composite, s) ∧
      loopBody m s = (m.norm (s.i + 2)).bind fun i2 => .val { s with i := i2 }) ∧
    (m ≠ .wrap → ∀ s', loopBody m s = .val s' →
      s'.i = s.i + 2 ∧ s.count ≤ s'.count ∧ s'.count ≤ s.count + 1) ∧
    (∀ a, Inv g s a → a < 2 ^ 29 →
      ∃ s', loopBody m s = .val s' ∧ s'.i = s.i + 2 ∧ s.count ≤ s'.count ∧
        s'.count ≤ s.count + 1 ∧
        (¬ Nat.Prime a → scan m s.primes s.i CAPACITY 1 = .val .composite ∧
          s'.count = s.count ∧ s'.primes = s.primes)) := by
  refine ⟨?_, fun hm s' h => loopBody_val hm h, ?_⟩
  · intro h
    have hin : Primelib.innerLoop m CAPACITY 1 s = .val (.composite, s) := by
      rw [scan_bind_effect, h, Res.val_bind, afterVerdict]
    refine ⟨hin, by rw [prime5_innerLoop_eq]; exact hin, ?_⟩
    rw [loopBody, hin, Res.val_bind]
  · intro a hinv ha
    have hb := loopBody_spec m g s a hinv ha
    by_cases hp : Nat.Prime a
    · rw [if_pos hp] at hb
      refine ⟨_, hb, rfl, ?_, ?_, fun h => absurd hp h⟩
      · simp only [primeBranch]; omega
      · simp only [primeBranch]; omega
    · rw [if_neg hp] at hb
      refine ⟨_, hb, rfl, le_rfl, by simp only; omega, fun _ => ⟨?_, rfl, rfl⟩⟩
      have hs := scan_spec m s.primes a hinv.2.1 hinv.2.2.1 ha
        (fun j _ hj h46 => hinv.2.2.2.2.1 j hj (by omega))
      rw [if_neg hp, ← hinv.1] at hs
      exact hs

/-- Started on the same stack content, for every `n`, every arithmetic mode
and every fuel, the default mode of `main` prints exactly what `primes(n)`
returns (and fails or runs on exactly when it does), and the two loops leave
the same variables. -/
theorem main_eq_primes_same_stack (m : IntMode) (argc : Int) (g : Buffer) (n : Int)
    (fuel : Nat) (hargc : argc ≤ 1) :
    Prime5.main m argc g n fuel =
      (Primelib.primes m g n fuel).bind (fun v => .val (.nth v n)) ∧
    Prime5.run m g n fuel = Primelib.run m g n fuel := by
  refine ⟨?_, prime5_run_eq m g n fuel⟩
  rw [Prime5.main, Primelib.primes, prime5_run_eq, Res.bind_assoc]
  congr 1
  funext s
  rw [if_neg (by omega)]

/-- C17: for every `n ≤ 2`, in every arithmetic mode: the loop is left
without one execution of its body (fuel 0, and the start is the only loop
head), `primes(n)` returns 3 whatever `n` is, and the buffer is the stack
content with cells 0 and 1 set to 2 and 3 when `n ≥ 1` and the untouched stack
content when `n < 1`. -/
theorem C17_small_n (m : IntMode) (g : Buffer) (n : Int) (fuel : Nat) (hn : n ≤ 2) :
    Primelib.run m g n 0 = .val (start g n) ∧
    Primelib.run m g n fuel = .val (start g n) ∧
    (∀ s, Head m n (start g n) s → s = start g n) ∧
    Primelib.primes m g n fuel = .val 3 ∧
    (1 ≤ n → (start g n).primes 0 = 2 ∧ (start g n).primes 1 = 3 ∧
      ∀ j, 2 ≤ j → (start g n).primes j = g j) ∧
    (n < 1 → (start g n).primes = g) := by
  refine ⟨run_small m g n hn 0, run_small m g n hn fuel, ?_, primes_small m g n hn fuel, ?_, ?_⟩
  · intro s h
    induction h with
    | first => rfl
    | next _ hc _ ih =>
      rw [ih] at hc
      simp only [start] at hc
      omega
  · intro h1
    have hs : seed g n = (g.set 0 2).set 1 3 := by
      have : n ≥ 1 := h1
      simp [seed, this]
    simp only [start, hs, Buffer.set]
    refine ⟨by simp, by simp, ?_⟩
    intro j hj
    rw [if_neg (by omega), if_neg (by omega)]
  · intro h0
    have : ¬ n ≥ 1 := by omega
    simp [start, seed, this]

/-- Instance of C17 at `n = 2`. -/
theorem C17_small_n_witness :
    (2 : Int) ≤ 2 ∧
    (Primelib.run .wrap (fun _ => 9) 2 0 = .val (start (fun _ => 9) 2) ∧
    Primelib.run .wrap (fun _ => 9) 2 7 = .val (start (fun _ => 9) 2) ∧
    (∀ s, Head .wrap 2 (start (fun _ => 9) 2) s → s = start (fun _ => 9) 2) ∧
    Primelib.primes .wrap (fun _ => 9) 2 7 = .val 3 ∧
    ((1 : Int) ≤ 2 → (start (fun _ => 9) 2).primes 0 = 2 ∧ (start (fun _ => 9) 2).primes 1 = 3 ∧
      ∀ j, 2 ≤ j → (start (fun _ => 9) 2).primes j = (fun _ => (9 : Int)) j) ∧
    ((2 : Int) < 1 → (start (fun _ => 9) 2).primes = fun _ => 9)) :=
  ⟨by decide, C17_small_n .wrap (fun _ => 9) 2 7 (by decide)⟩

/-! ### Loop heads of the runs for `n ≤ 10001` -/

/-- At a loop head where `count <= n` holds, the candidate is at most the
`n`-th prime `P`. -/
theorem candidate_le_of_count_le {g : Buffer} {s : Vars} {a P : Nat} (hP : Nat.Prime P)
    (hinv : Inv g s a) (hc : s.count ≤ (Nat.count Nat.Prime P : Int) + 1) : a ≤ P := by
  by_contra hgt
  have h1 : Nat.count Nat.Prime P < Nat.count Nat.Prime (P + 1) :=
    Nat.count_strict_mono hP (Nat.lt_succ_self P)
  have h2 : Nat.count Nat.Prime (P + 1) ≤ Nat.count Nat.Prime a :=
    Nat.count_monotone Nat.Prime (by omega)
  rw [hinv.2.2.2.1] at hc
  omega

theorem head_inv_small (m : IntMode) (g : Buffer) (P : Nat) (hP : Nat.Prime P)
    (hb : P < 2 ^ 29) (s0 : Vars) (a0 : Nat) (h0 : Inv g s0 a0) (ha0 : a0 ≤ P + 2) (s : Vars)
    (h : Head m ((Nat.count Nat.Prime P : Int) + 1) s0 s) : ∃ a, Inv g s a ∧ a ≤ P + 2 := by
  induction h with
  | first => exact ⟨a0, h0, ha0⟩
  | next _ hc hbody ih =>
    obtain ⟨a, hinv, -⟩ := ih
    have haP := candidate_le_of_count_le hP hinv hc
    exact ⟨a + 2, loopBody_inv m g _ _ a hinv (by omega) hbody, by omega⟩

/-- The loop heads of a run for `3 ≤ n ≤ 10001`, in every arithmetic mode,
satisfy the relation `Inv` with a candidate of at most 104745. -/
theorem head_inv_of_le (m : IntMode) (g : Buffer) (n : Int) (h3 : 3 ≤ n) (h2 : n ≤ 10001)
    (s : Vars) (h : Head m n (start g n) s) : ∃ a, Inv g s a ∧ a ≤ 104745 := by
  obtain ⟨k, rfl⟩ := Int.eq_ofNat_of_zero_le (by omega : 0 ≤ n)
  have hk : k ≤ 10001 := by omega
  obtain ⟨hb, hle⟩ := @nth_prime_bounds k 52370 hk le_rfl
  have hcnt : ((Nat.count Nat.Prime (Nat.nth Nat.Prime (k - 1)) : Nat) : Int) + 1 = (k : Int) := by
    rw [Nat.count_nth_of_infinite Nat.infinite_setOf_prime]
    omega
  have h5 := five_le_nth_prime (j := k - 1) (by omega)
  rw [← hcnt] at h
  obtain ⟨a, hinv, ha⟩ := head_inv_small m g _ (Nat.prime_nth_prime (k - 1)) hb _ 5
    (inv_init g k (by omega)) (by omega) s (by rw [hcnt]; rw [hcnt] at h; exact h)
  exact ⟨a, hinv, by omega⟩

/-- At the loop heads of a run for `3 ≤ n ≤ 10001`, `count` lies between 3
and `n + 1`. -/
theorem head_count_bounds (m : IntMode) (g : Buffer) (n : Int) (h3 : 3 ≤ n) (h2 : n ≤ 10001)
    (s : Vars) (h : Head m n (start g n) s) : 3 ≤ s.count ∧ s.count ≤ n + 1 := by
  obtain ⟨k, rfl⟩ := Int.eq_ofNat_of_zero_le (by omega : 0 ≤ n)
  have hk : k ≤ 10001 := by omega
  obtain ⟨hb, -⟩ := @nth_prime_bounds k 52370 hk le_rfl
  have hcnt : ((Nat.count Nat.Prime (Nat.nth Nat.Prime (k - 1)) : Nat) : Int) + 1 = (k : Int) := by
    rw [Nat.count_nth_of_infinite Nat.infinite_setOf_prime]
    omega
  have h5 := five_le_nth_prime (j := k - 1) (by omega)
  have hodd := nth_prime_odd (j := k - 1) (by omega)
  obtain ⟨a, hinv, ha⟩ := head_inv_small m g _ (Nat.prime_nth_prime (k - 1)) hb _ 5
    (inv_init g k (by omega)) (by omega) s (by rw [hcnt]; exact h)
  have hlo : Nat.count Nat.Prime 5 ≤ Nat.count Nat.Prime a :=
    Nat.count_monotone Nat.Prime hinv.2.1
  have hhi : Nat.count Nat.Prime a ≤ Nat.count Nat.Prime (Nat.nth Nat.Prime (k - 1) + 2) :=
    Nat.count_monotone Nat.Prime ha
  rw [count_add_two h5 hodd, if_pos (Nat.prime_nth_prime _),
    Nat.count_nth_of_infinite Nat.infinite_setOf_prime] at hhi
  rw [count_prime_five] at hlo
  rw [hinv.2.2.2.1]
  omega

/-- Below the `n`-th prime `P < 2 ^ 29` the loop does the same in every
arithmetic mode, for any fuel. -/
theorem forLoop_mode_indep (m1 m2 : IntMode) (g : Buffer) (P : Nat) (hP : Nat.Prime P)
    (hb : P < 2 ^ 29) :
    ∀ fuel s a, Inv g s a → a ≤ P + 2 →
      Primelib.forLoop m1 ((Nat.count Nat.Prime P : Int) + 1) fuel s =
        Primelib.forLoop m2 ((Nat.count Nat.Prime P : Int) + 1) fuel s := by
  intro fuel
  induction fuel with
  | zero =>
    intro s a _ _
    rw [Primelib.forLoop, Primelib.forLoop]
  | succ f ih =>
    intro s a hinv ha
    rw [forLoop_succ, forLoop_succ]
    by_cases hc : s.count ≤ (Nat.count Nat.Prime P : Int) + 1
    · have haP := candidate_le_of_count_le hP hinv hc
      have hs1 := loopBody_spec m1 g s a hinv (by omega)
      have hs2 := loopBody_spec m2 g s a hinv (by omega)
      have hinv2 := loopBody_inv m1 g s _ a hinv (by omega) hs1
      rw [if_pos hc, if_pos hc, hs1, hs2, Res.val_bind, Res.val_bind]
      exact ih _ (a + 2) hinv2 (by omega)
    · rw [if_neg hc, if_neg hc]

/-- For `n ≤ 10001` the run is the same in every arithmetic mode. -/
theorem run_mode_indep (m1 m2 : IntMode) (g : Buffer) (n : Int) (hn : n ≤ 10001)
    (fuel : Nat) : Primelib.run m1 g n fuel = Primelib.run m2 g n fuel := by
  by_cases h2 : n ≤ 2
  · rw [run_small m1 g n h2 fuel, run_small m2 g n h2 fuel]
  · obtain ⟨k, rfl⟩ := Int.eq_ofNat_of_zero_le (by omega : 0 ≤ n)
    have hk : k ≤ 10001 := by omega
    obtain ⟨hb, -⟩ := @nth_prime_bounds k 52370 hk le_rfl
    have hcnt : ((Nat.count Nat.Prime (Nat.nth Nat.Prime (k - 1)) : Nat) : Int) + 1 = (k : Int) := by
      rw [Nat.count_nth_of_infinite Nat.infinite_setOf_prime]
      omega
    have h5 := five_le_nth_prime (j := k - 1) (by omega)
    have := forLoop_mode_indep m1 m2 g _ (Nat.prime_nth_prime (k - 1)) hb fuel
      { i := 5, count := 3, primes := seed g k } 5 (inv_init g k (by omega)) (by omega)
    rw [hcnt] at this
    exact this

/-- For `n ≤ 10001` the variables a run leaves with hold an `i` between 5 and
104745. -/
theorem run_val_bounds (m : IntMode) (g : Buffer) (n : Int) (hn : n ≤ 10001) (fuel : Nat)
    (s : Vars) (h : Primelib.run m g n fuel = .val s) : 5 ≤ s.i ∧ s.i ≤ 104745 := by
  by_cases h2 : n ≤ 2
  · rw [run_small m g n h2 fuel, Res.val.injEq] at h
    subst h
    constructor <;> simp only <;> omega
  · have hh := (head_of_forLoop m n (start g n) fuel (start g n) s Head.first h).1
    obtain ⟨a, hinv, ha⟩ := head_inv_of_le m g n (by omega) hn s hh
    rw [hinv.1]
    have := hinv.2.1
    omega

/-- For `n ≤ 10001` the library function gives the same in every arithmetic
mode, for any fuel. -/
theorem primes_mode_indep (m1 m2 : IntMode) (g : Buffer) (n : Int) (hn : n ≤ 10001)
    (fuel : Nat) : Primelib.primes m1 g n fuel = Primelib.primes m2 g n fuel := by
  rw [Primelib.primes, Primelib.primes, run_mode_indep m1 m2 g n hn fuel]
  cases hr : Primelib.run m2 g n fuel with
  | val s =>
    obtain ⟨h5, h6⟩ := run_val_bounds m2 g n hn fuel s hr
    rw [Res.val_bind, Res.val_bind,
      norm_val m1 (by simp only [INT_MIN]; omega) (by simp only [INT_MAX]; omega),
      norm_val m2 (by simp only [INT_MIN]; omega) (by simp only [INT_MAX]; omega)]
  | fault e => rfl
  | timeout => rfl

/-! ### The cells the scan reads -/

/-- The verdict of the traced scan is the verdict of the scan. -/
theorem scan_eq_trace (m : IntMode) (b : Buffer) (i : Int) :
    ∀ fuel k, scan m b i fuel k = (scanTrace m b i fuel k).bind fun r => .val r.1 := by
  intro fuel
  induction fuel with
  | zero => intro k; rfl
  | succ f ih =>
    intro k
    rw [scan, scanTrace, Res.bind_assoc]
    congr 1
    funext p
    by_cases hp : p = 0
    · simp only [if_pos hp, Res.fault_bind]
    · simp only [if_neg hp]
      by_cases hm : i.tmod p = 0
      · simp only [if_pos hm, Res.val_bind]
      · simp only [if_neg hm, Res.bind_assoc]
        congr 1
        funext sq
        by_cases hs : sq > i
        · simp only [if_pos hs, Res.val_bind]
        · simp only [if_neg hs]
          exact ih (k + 1)

/-- Traced scan of candidate `a` from cell `k` on, the cells before `k` having
given no verdict: the verdict falls at a cell `kf` whose prime is below `a` and
at most 46340, and the cells before `kf` give no verdict. -/
theorem scanTrace_from (m : IntMode) (b : Buffer) (a : Nat) (ha5 : 5 ≤ a)
    (ha : a < 2 ^ 29)
    (hcells : ∀ j, 1 ≤ j → Nat.nth Nat.Prime j < a → Nat.nth Nat.Prime j ≤ 46340 →
      b j = Nat.nth Nat.Prime j) :
    ∀ fuel k, fuel + k = CAPACITY + 1 → 1 ≤ k →
      (∀ j, 1 ≤ j → j < k →
        ¬ Nat.nth Nat.Prime j ∣ a ∧ Nat.nth Nat.Prime j * Nat.nth Nat.Prime j ≤ a) →
      ∃ v kf, scanTrace m b a fuel k = .val (v, kf) ∧ k ≤ kf ∧
        Nat.nth Nat.Prime kf < a ∧ Nat.nth Nat.Prime kf ≤ 46340 ∧ kf < 9592 ∧
        (Nat.nth Nat.Prime kf ∣ a ∨ a < Nat.nth Nat.Prime kf * Nat.nth Nat.Prime kf) := by
  intro fuel
  induction fuel with
  | zero =>
    intro k hk hk1 hscan
    have := (scan_cell_bounds ha5 ha hk1 hscan).2.2
    simp only [CAPACITY] at hk
    omega
  | succ f ih =>
    intro k hk hk1 hscan
    obtain ⟨hpa, hp46, hk9⟩ := scan_cell_bounds ha5 ha hk1 hscan
    have hp3 := three_le_nth_prime hk1
    have hcell : b k = (Nat.nth Nat.Prime k : Int) := hcells k hk1 hpa hp46
    have hload : load b k = .val (Nat.nth Nat.Prime k : Int) := by
      simp only [load, CAPACITY, hcell]
      rw [if_pos (by omega)]
    have hne : ((Nat.nth Nat.Prime k : Nat) : Int) ≠ 0 := by
      exact_mod_cast (by omega : Nat.nth Nat.Prime k ≠ 0)
    have hmod : (a : Int).tmod (Nat.nth Nat.Prime k : Int) =
        ((a % Nat.nth Nat.Prime k : Nat) : Int) := (Int.ofNat_tmod a _).symm
    rw [scanTrace, hload]
    simp only [Res.val_bind, if_neg hne, hmod]
    by_cases hdvd : Nat.nth Nat.Prime k ∣ a
    · have hz : a % Nat.nth Nat.Prime k = 0 := Nat.mod_eq_zero_of_dvd hdvd
      refine ⟨.composite, k, ?_, le_rfl, hpa, hp46, hk9, Or.inl hdvd⟩
      simp [hz]
    · have hz : ¬ ((a % Nat.nth Nat.Prime k : Nat) : Int) = 0 := by
        intro h
        exact hdvd (Nat.dvd_of_mod_eq_zero (by exact_mod_cast h))
      rw [if_neg hz]
      have hsqr : Nat.nth Nat.Prime k * Nat.nth Nat.Prime k ≤ 46340 * 46340 :=
        Nat.mul_le_mul hp46 hp46
      have hnorm : m.norm ((Nat.nth Nat.Prime k : Int) * (Nat.nth Nat.Prime k : Int)) =
          .val ((Nat.nth Nat.Prime k : Int) * (Nat.nth Nat.Prime k : Int)) := by
        apply norm_val
        · have h0 : (0 : Int) ≤ (Nat.nth Nat.Prime k : Int) * (Nat.nth Nat.Prime k : Int) := by
            positivity
          unfold INT_MIN; omega
        · unfold INT_MAX
          exact_mod_cast (by omega : Nat.nth Nat.Prime k * Nat.nth Nat.Prime k ≤ 2147483647)
      rw [hnorm, Res.val_bind]
      by_cases hgt : a < Nat.nth Nat.Prime k * Nat.nth Nat.Prime k
      · have hgt2 : (Nat.nth Nat.Prime k : Int) * (Nat.nth Nat.Prime k : Int) > (a : Int) := by
          exact_mod_cast hgt
        rw [if_pos hgt2]
        exact ⟨.prime, k, rfl, le_rfl, hpa, hp46, hk9, Or.inr hgt⟩
      · have hgt2 : ¬ (Nat.nth Nat.Prime k : Int) * (Nat.nth Nat.Prime k : Int) > (a : Int) := by
          exact_mod_cast hgt
        rw [if_neg hgt2]
        obtain ⟨v, kf, h1, h2, h3⟩ := ih (k + 1) (by omega) (by omega) (by
          intro j hj1 hj2
          rcases Nat.eq_or_lt_of_le (Nat.lt_succ_iff.1 hj2) with h | h
          · subst h; exact ⟨hdvd, by omega⟩
          · exact hscan j hj1 h)
        exact ⟨v, kf, h1, by omega, h3⟩

/-- The largest prime below `M ≥ 3` is at least half of `M`. -/
theorem last_prime_below {M : Nat} (hM : 3 ≤ M) :
    Nat.nth Nat.Prime (Nat.count Nat.Prime M - 1) < M ∧
    M ≤ 2 * Nat.nth Nat.Prime (Nat.count Nat.Prime M - 1) := by
  obtain ⟨r, hr, h1, h2⟩ := Nat.exists_prime_lt_and_le_two_mul ((M - 1) / 2) (by omega)
  have hrM : r < M := by omega
  have hcr : Nat.count Nat.Prime r < Nat.count Nat.Prime M := Nat.count_strict_mono hr hrM
  have hq : Nat.nth Nat.Prime (Nat.count Nat.Prime M - 1) < M :=
    Nat.nth_lt_of_lt_count (by omega)
  have hle : Nat.nth Nat.Prime (Nat.count Nat.Prime r) ≤
      Nat.nth Nat.Prime (Nat.count Nat.Prime M - 1) :=
    (Nat.nth_le_nth Nat.infinite_setOf_prime).2 (by omega)
  rw [Nat.nth_count hr] at hle
  exact ⟨hq, by omega⟩

/-- The last stored prime at a loop head with candidate `a ≤ 104745` has a
square above `a`. -/
theorem last_stored_sq_gt {a : Nat} (ha5 : 5 ≤ a) (ha : a ≤ 104745) :
    a < Nat.nth Nat.Prime (Nat.count Nat.Prime (min a 100000) - 1) *
      Nat.nth Nat.Prime (Nat.count Nat.Prime (min a 100000) - 1) := by
  obtain ⟨h1, h2⟩ := last_prime_below (M := min a 100000) (by omega)
  rcases Nat.lt_or_ge a 100000 with hlt | hge
  · rw [Nat.min_eq_left (by omega)] at h1 h2 ⊢
    have h3 : 3 ≤ Nat.nth Nat.Prime (Nat.count Nat.Prime a - 1) := by omega
    have := Nat.mul_le_mul_right (Nat.nth Nat.Prime (Nat.count Nat.Prime a - 1)) h3
    omega
  · rw [Nat.min_eq_right hge] at h1 h2 ⊢
    have h3 : 50000 ≤ Nat.nth Nat.Prime (Nat.count Nat.Prime 100000 - 1) := by omega
    have := Nat.mul_le_mul h3 h3
    omega

/-- What the scan reads at a loop head with candidate `a < 2 ^ 29`. -/
theorem scanTrace_spec (m : IntMode) (g : Buffer) (s : Vars) (a : Nat) (hinv : Inv g s a)
    (ha : a < 2 ^ 29) :
    ∃ v kf, scanTrace m s.primes s.i CAPACITY 1 = .val (v, kf) ∧
      scan m s.primes s.i CAPACITY 1 = .val v ∧ 1 ≤ kf ∧ (kf : Int) < s.count - 1 ∧
      kf < Nat.count Nat.Prime (min a 100000) ∧
      ∀ j, 1 ≤ j → j ≤ kf → s.primes j = Nat.nth Nat.Prime j ∧ Nat.nth Nat.Prime j ≤ 46340 := by
  obtain ⟨hi, ha5, hodd, hcount, hstored, -⟩ := hinv
  obtain ⟨v, kf, ht, hk1, hlt, h46, -, -⟩ := scanTrace_from m s.primes a ha5 ha
    (fun j _ hj h46 => hstored j hj (by omega)) CAPACITY 1 rfl le_rfl (fun j h1 h2 => by omega)
  rw [← hi] at ht
  have hmin : Nat.nth Nat.Prime kf < min a 100000 := by
    rw [Nat.lt_min]; exact ⟨hlt, by omega⟩
  have hkc : kf < Nat.count Nat.Prime (min a 100000) :=
    (Nat.lt_nth_iff_count_lt Nat.infinite_setOf_prime).2 hmin
  have hka : kf < Nat.count Nat.Prime a :=
    (Nat.lt_nth_iff_count_lt Nat.infinite_setOf_prime).2 hlt
  refine ⟨v, kf, ht, ?_, hk1, ?_, hkc, ?_⟩
  · rw [scan_eq_trace, ht, Res.val_bind]
  · rw [hcount]; omega
  · intro j _ hj
    have hle : Nat.nth Nat.Prime j ≤ Nat.nth Nat.Prime kf :=
      (Nat.nth_le_nth Nat.infinite_setOf_prime).2 hj
    exact ⟨hstored j (by omega) (by omega), by omega⟩

/-- C15: at every loop head of a run for `3 ≤ n ≤ 10000`, so for every
candidate tested, in every arithmetic mode and whatever the stack held, the
scan reaches its verdict at a cell `kf` with `1 ≤ kf < count - 1`, below the
number of stored entries (the primes below `min(i, 100000)`, of which there are
never more than the 9592 primes below 100000); every cell it reads, `1..kf`,
holds the prime written there; and the last stored prime has a square above
`i`. -/
theorem C15_scan_reads_written (m : IntMode) (g : Buffer) (n : Int) (s : Vars)
    (h3 : 3 ≤ n) (h2 : n ≤ 10000) (hhead : Head m n (start g n) s) :
    ∃ v kf, scanTrace m s.primes s.i CAPACITY 1 = .val (v, kf) ∧
      scan m s.primes s.i CAPACITY 1 = .val v ∧
      1 ≤ kf ∧ (kf : Int) < s.count - 1 ∧
      kf < Nat.count Nat.Prime (min s.i.toNat 100000) ∧
      Nat.count Nat.Prime (min s.i.toNat 100000) ≤ 9592 ∧
      (∀ j, 1 ≤ j → j ≤ kf → s.primes j = Nat.nth Nat.Prime j) ∧
      s.i < (Nat.nth Nat.Prime (Nat.count Nat.Prime (min s.i.toNat 100000) - 1) : Int) *
        (Nat.nth Nat.Prime (Nat.count Nat.Prime (min s.i.toNat 100000) - 1) : Int) := by
  obtain ⟨a, hinv, ha⟩ := head_inv_of_le m g n h3 (by omega) s hhead
  obtain ⟨v, kf, ht, hs, hk1, hk2, hk3, hcells⟩ :=
    scanTrace_spec m g s a hinv (by norm_num; omega)
  have hi : s.i.toNat = a := by rw [hinv.1]; simp
  rw [hi]
  refine ⟨v, kf, ht, hs, hk1, hk2, hk3, ?_, fun j h1 hj => (hcells j h1 hj).1, ?_⟩
  · have := Nat.count_monotone Nat.Prime (Nat.min_le_right a 100000)
    rwa [count_100000] at this
  · rw [hinv.1]
    exact_mod_cast last_stored_sq_gt hinv.2.1 ha

/-- Instance of C15 at the first loop head of a run for `n = 3`. -/
theorem C15_scan_reads_witness :
    (3 : Int) ≤ 3 ∧ (3 : Int) ≤ 10000 ∧
    Head .checked 3 (start (fun _ => 0) 3) (start (fun _ => 0) 3) ∧
    ∃ v kf, scanTrace .checked (start (fun _ => 0) 3).primes (start (fun _ => 0) 3).i CAPACITY 1 =
        .val (v, kf) ∧
      scan .checked (start (fun _ => 0) 3).primes (start (fun _ => 0) 3).i CAPACITY 1 = .val v ∧
      1 ≤ kf ∧ (kf : Int) < (start (fun _ => 0) 3).count - 1 ∧
      kf < Nat.count Nat.Prime (min (start (fun _ => 0) 3).i.toNat 100000) ∧
      Nat.count Nat.Prime (min (start (fun _ => 0) 3).i.toNat 100000) ≤ 9592 ∧
      (∀ j, 1 ≤ j → j ≤ kf → (start (fun _ => 0) 3).primes j = Nat.nth Nat.Prime j) ∧
      (start (fun _ => 0) 3).i <
        (Nat.nth Nat.Prime
          (Nat.count Nat.Prime (min (start (fun _ => 0) 3).i.toNat 100000) - 1) : Int) *
        (Nat.nth Nat.Prime
          (Nat.count Nat.Prime (min (start (fun _ => 0) 3).i.toNat 100000) - 1) : Int) :=
  ⟨by decide, by decide, Head.first,
    C15_scan_reads_written .checked (fun _ => 0) 3 (start (fun _ => 0) 3)
      (by decide) (by decide) Head.first⟩

/-- C16: for `1 ≤ n ≤ 10000`, whatever the stack held and for any fuel:
`primes(n)` computed with 32-bit wrap-around, with ISO C arithmetic and with
unbounded integers is the same; under ISO C arithmetic the run meets no fault,
so no `int` expression overflows; at every loop head `i` lies in `[5, 104745]`
and `count` in `[3, 10001]`, and every square the scan computes there lies in
`[0, INT_MAX]`; and the value returned lies in `[0, 104743]`. -/
theorem C16_no_overflow (g : Buffer) (n : Int) (fuel : Nat) (h1 : 1 ≤ n) (h2 : n ≤ 10000) :
    Primelib.primes .wrap g n fuel = Primelib.primes .exact g n fuel ∧
    Primelib.primes .checked g n fuel = Primelib.primes .exact g n fuel ∧
    (∀ e, Primelib.run .checked g n fuel ≠ .fault e ∧
      Primelib.primes .checked g n fuel ≠ .fault e) ∧
    (∀ m s, Head m n (start g n) s →
      5 ≤ s.i ∧ s.i ≤ 104745 ∧ 3 ≤ s.count ∧ s.count ≤ 10001 ∧
      (s.count ≤ n → ∃ v kf, scanTrace m s.primes s.i CAPACITY 1 = .val (v, kf) ∧
        ∀ j, 1 ≤ j → j ≤ kf →
          0 ≤ s.primes j * s.primes j ∧ s.primes j * s.primes j ≤ INT_MAX)) ∧
    (52370 ≤ fuel → ∃ v, Primelib.primes .wrap g n fuel = .val v ∧ 0 ≤ v ∧ v ≤ 104743) := by
  have hnf : ∀ e, Primelib.run .checked g n fuel ≠ .fault e :=
    fun e => run_no_fault .checked g n (by omega) fuel e
  refine ⟨primes_mode_indep _ _ g n (by omega) fuel, primes_mode_indep _ _ g n (by omega) fuel,
    fun e => ⟨hnf e, ?_⟩, ?_, ?_⟩
  · intro h
    rw [Primelib.primes] at h
    rcases bind_eq_fault h with h | ⟨s, hs, h⟩
    · exact hnf e h
    · obtain ⟨h5, h6⟩ := run_val_bounds .checked g n (by omega) fuel s hs
      rw [norm_val .checked (by simp only [INT_MIN]; omega) (by simp only [INT_MAX]; omega)] at h
      exact absurd h (by simp)
  · intro m s hhead
    by_cases hn : n ≤ 2
    · have hs : s = start g n := by
        have hstart : ¬ (start g n).count ≤ n := by simp only [start]; omega
        induction hhead with
        | first => rfl
        | next _ hc _ ih => rw [ih] at hc; exact absurd hc hstart
      subst hs
      refine ⟨by simp [start], by simp [start], by simp [start], by simp [start], ?_⟩
      intro hc
      simp only [start] at hc
      omega
    · obtain ⟨a, hinv, ha⟩ := head_inv_of_le m g n (by omega) (by omega) s hhead
      obtain ⟨hc3, hc4⟩ := head_count_bounds m g n (by omega) (by omega) s hhead
      refine ⟨by rw [hinv.1]; have := hinv.2.1; omega, by rw [hinv.1]; omega,
        hc3, by omega, ?_⟩
      intro _
      obtain ⟨v, kf, ht, -, -, -, -, hcells⟩ := scanTrace_spec m g s a hinv (by norm_num; omega)
      refine ⟨v, kf, ht, ?_⟩
      intro j hj1 hj
      obtain ⟨hcell, h46⟩ := hcells j hj1 hj
      rw [hcell]
      have hsq : Nat.nth Nat.Prime j * Nat.nth Nat.Prime j ≤ 46340 * 46340 :=
        Nat.mul_le_mul h46 h46
      constructor
      · positivity
      · simp only [INT_MAX]
        exact_mod_cast (by omega : Nat.nth Nat.Prime j * Nat.nth Nat.Prime j ≤ 2147483647)
  · intro hf
    by_cases hn : n ≤ 2
    · exact ⟨3, primes_small .wrap g n hn fuel, by decide, by decide⟩
    · obtain ⟨k, rfl⟩ := Int.eq_ofNat_of_zero_le (by omega : 0 ≤ n)
      refine ⟨_, primes_eq_nth_prime .wrap g k (by omega) (by omega) fuel hf, by positivity, ?_⟩
      have := nth_prime_lt_of_lt_10000 (j := k - 1) (by omega)
      exact_mod_cast (by omega : Nat.nth Nat.Prime (k - 1) ≤ 104743)

/-- Instance of C16 at `n = 10000`. -/
theorem C16_no_overflow_witness :
    (1 : Int) ≤ 10000 ∧ (10000 : Int) ≤ 10000 ∧
    (Primelib.primes .wrap (fun _ => 0) 10000 52370 =
      Primelib.primes .exact (fun _ => 0) 10000 52370 ∧
    Primelib.primes .checked (fun _ => 0) 10000 52370 =
      Primelib.primes .exact (fun _ => 0) 10000 52370 ∧
    (∀ e, Primelib.run .checked (fun _ => 0) 10000 52370 ≠ .fault e ∧
      Primelib.primes .checked (fun _ => 0) 10000 52370 ≠ .fault e) ∧
    (∀ m s, Head m 10000 (start (fun _ => 0) 10000) s →
      5 ≤ s.i ∧ s.i ≤ 104745 ∧ 3 ≤ s.count ∧ s.count ≤ 10001 ∧
      (s.count ≤ 10000 → ∃ v kf, scanTrace m s.primes s.i CAPACITY 1 = .val (v, kf) ∧
        ∀ j, 1 ≤ j → j ≤ kf →
          0 ≤ s.primes j * s.primes j ∧ s.primes j * s.primes j ≤ INT_MAX)) ∧
    (52370 ≤ 52370 →
      ∃ v, Primelib.primes .wrap (fun _ => 0) 10000 52370 = .val v ∧ 0 ≤ v ∧ v ≤ 104743)) :=
  ⟨by decide, by decide, C16_no_overflow (fun _ => 0) 10000 52370 (by decide) (by decide)⟩

/-! ### Loop heads under ISO C arithmetic, for every `n` -/

/-- Facts on the prime of cell `k` when the scan of a candidate that fits an
`int` has passed the cells `1..k-1` without a verdict. -/
theorem scan_cell_bounds_wide {a k : Nat} (ha5 : 5 ≤ a) (ha : a < 2 ^ 31) (hk : 1 ≤ k)
    (hscan : ∀ j, 1 ≤ j → j < k →
      ¬ Nat.nth Nat.Prime j ∣ a ∧ Nat.nth Nat.Prime j * Nat.nth Nat.Prime j ≤ a) :
    Nat.nth Nat.Prime k < a ∧ Nat.nth Nat.Prime k ≤ 92680 ∧ k < 9592 := by
  have hpa : Nat.nth Nat.Prime k < a ∧ Nat.nth Nat.Prime k ≤ 92680 := by
    rcases Nat.eq_or_lt_of_le hk with h1 | h1
    · rw [← h1, Nat.nth_prime_one_eq_three]; omega
    · obtain ⟨k', rfl⟩ : ∃ k', k = k' + 1 := ⟨k - 1, by omega⟩
      have hq := (hscan k' (by omega) (by omega)).2
      have h3 := three_le_nth_prime (j := k') (by omega)
      have h2 := nth_prime_succ_le k'
      have hq2 : Nat.nth Nat.Prime k' ≤ 46340 := by
        by_contra hlt
        have : 46341 * 46341 ≤ Nat.nth Nat.Prime k' * Nat.nth Nat.Prime k' :=
          Nat.mul_le_mul (by omega) (by omega)
        norm_num at ha
        omega
      have h4 : 3 * Nat.nth Nat.Prime k' ≤ Nat.nth Nat.Prime k' * Nat.nth Nat.Prime k' :=
        Nat.mul_le_mul_right _ h3
      constructor <;> omega
  refine ⟨hpa.1, hpa.2, ?_⟩
  have hlt : Nat.nth Nat.Prime k < 100000 := by omega
  have := (Nat.lt_nth_iff_count_lt Nat.infinite_setOf_prime).2 hlt
  rwa [count_100000] at this

/-- In exact or ISO C arithmetic, a scan of a candidate `a < 2 ^ 31` that
returns a verdict returns the right one. -/
theorem scan_val_verdict {m : IntMode} (hm : m ≠ .wrap) (b : Buffer) (a : Nat) (ha5 : 5 ≤ a)
    (hodd : a % 2 = 1) (ha : a < 2 ^ 31)
    (hcells : ∀ j, 1 ≤ j → Nat.nth Nat.Prime j < a → Nat.nth Nat.Prime j < 100000 →
      b j = Nat.nth Nat.Prime j) :
    ∀ fuel k v, 1 ≤ k →
      (∀ j, 1 ≤ j → j < k →
        ¬ Nat.nth Nat.Prime j ∣ a ∧ Nat.nth Nat.Prime j * Nat.nth Nat.Prime j ≤ a) →
      scan m b a fuel k = .val v →
      v = if Nat.Prime a then Verdict.prime else Verdict.composite := by
  intro fuel
  induction fuel with
  | zero =>
    intro k v _ _ h
    exact absurd h (by simp [scan])
  | succ f ih =>
    intro k v hk1 hscan h
    obtain ⟨hpa, hp9, hk9⟩ := scan_cell_bounds_wide ha5 ha hk1 hscan
    have hp3 := three_le_nth_prime hk1
    have hcell : b k = (Nat.nth Nat.Prime k : Int) := hcells k hk1 hpa (by omega)
    have hload : load b k = .val (Nat.nth Nat.Prime k : Int) := by
      simp only [load, CAPACITY, hcell]
      rw [if_pos (by omega)]
    have hne : ((Nat.nth Nat.Prime k : Nat) : Int) ≠ 0 := by
      exact_mod_cast (by omega : Nat.nth Nat.Prime k ≠ 0)
    have hmod : (a : Int).tmod (Nat.nth Nat.Prime k : Int) =
        ((a % Nat.nth Nat.Prime k : Nat) : Int) := (Int.ofNat_tmod a _).symm
    rw [scan, hload, Res.val_bind, if_neg hne, hmod] at h
    by_cases hdvd : Nat.nth Nat.Prime k ∣ a
    · have hz : ((a % Nat.nth Nat.Prime k : Nat) : Int) = 0 := by
        exact_mod_cast Nat.mod_eq_zero_of_dvd hdvd
      have hnp : ¬ Nat.Prime a := by
        intro hp
        rcases (Nat.dvd_prime hp).1 hdvd with h | h <;> omega
      rw [if_pos hz, Res.val.injEq] at h
      rw [if_neg hnp, ← h]
    · have hz : ¬ ((a % Nat.nth Nat.Prime k : Nat) : Int) = 0 := by
        intro h
        exact hdvd (Nat.dvd_of_mod_eq_zero (by exact_mod_cast h))
      rw [if_neg hz] at h
      obtain ⟨sq, hsq, h⟩ := bind_eq_val h
      have hsq2 := norm_exact hm hsq
      subst hsq2
      by_cases hgt : a < Nat.nth Nat.Prime k * Nat.nth Nat.Prime k
      · have hgt2 : (Nat.nth Nat.Prime k : Int) * (Nat.nth Nat.Prime k : Int) > (a : Int) := by
          exact_mod_cast hgt
        have hprime : Nat.Prime a := by
          refine prime_of_no_small_factor (by omega) hgt ?_
          intro q hq hqle hqa
          obtain ⟨j, hj, rfl⟩ := exists_index_of_prime_le hq hqle
          rcases Nat.eq_zero_or_pos j with h0 | h0
          · subst h0
            rw [Nat.nth_prime_zero_eq_two] at hqa
            omega
          · rcases Nat.eq_or_lt_of_le hj with h | h
            · subst h; exact hdvd hqa
            · exact (hscan j h0 h).1 hqa
        rw [if_pos hgt2, Res.val.injEq] at h
        rw [if_pos hprime, ← h]
      · have hgt2 : ¬ (Nat.nth Nat.Prime k : Int) * (Nat.nth Nat.Prime k : Int) > (a : Int) := by
          exact_mod_cast hgt
        rw [if_neg hgt2] at h
        refine ih (k + 1) v (by omega) ?_ h
        intro j hj1 hj2
        rcases Nat.eq_or_lt_of_le (Nat.lt_succ_iff.1 hj2) with h | h
        · subst h; exact ⟨hdvd, by omega⟩
        · exact hscan j hj1 h

/-- In exact or ISO C arithmetic a prime branch that returns has done what
`primeBranch` says. -/
theorem primeEffect_eq_primeBranch {m : IntMode} (hm : m ≠ .wrap) {s s' : Vars}
    (h : primeEffect m s = .val s') : s' = primeBranch s := by
  obtain ⟨h1, h2, h3, h4⟩ := primeEffect_val h
  have hc := norm_exact hm h2
  obtain ⟨i', c', p'⟩ := s'
  simp only at h1 hc h3 h4
  subst h1 hc
  simp only [primeBranch, Vars.mk.injEq, true_and]
  by_cases hsm : s.i < 100000
  · obtain ⟨idx, hidx, -, -, hp⟩ := h3 hsm
    have := norm_exact hm hidx
    subst this
    rw [if_pos hsm, hp]
  · rw [if_neg hsm, h4 hsm]

/-- In exact or ISO C arithmetic a pass of the body that returns from a loop
head with candidate `a < 2 ^ 31` leads to a loop head with candidate `a + 2`. -/
theorem loopBody_inv_exact {m : IntMode} (hm : m ≠ .wrap) (g : Buffer) (s s' : Vars) (a : Nat)
    (hinv : Inv g s a) (ha : a < 2 ^ 31) (h : loopBody m s = .val s') : Inv g s' (a + 2) := by
  rw [loopBody] at h
  obtain ⟨r, hr, h⟩ := bind_eq_val h
  obtain ⟨i2, hi2, h⟩ := bind_eq_val h
  rw [Res.val.injEq] at h
  subst h
  have hi := norm_exact hm hi2
  have hverdict := fun v hv => scan_val_verdict hm s.primes a hinv.2.1 hinv.2.2.1 ha
    (fun j _ hj h5 => hinv.2.2.2.2.1 j hj h5) CAPACITY 1 v le_rfl (fun j h1 h2 => by omega)
    (by rw [← hinv.1]; exact hv)
  rcases innerLoop_val hr with ⟨hs, rfl⟩ | ⟨hs, -, hp⟩
  · have hnp : ¬ Nat.Prime a := by
      intro hp
      have := hverdict _ hs
      rw [if_pos hp] at this
      exact absurd this (by decide)
    subst hi
    exact inv_next_composite hinv hnp
  · have hpr : Nat.Prime a := by
      by_contra hnp
      have := hverdict _ hs
      rw [if_neg hnp] at this
      exact absurd this (by decide)
    have hb := primeEffect_eq_primeBranch hm hp
    rw [hb] at hi ⊢
    have : (primeBranch s).i = s.i := rfl
    rw [this] at hi
    subst hi
    exact inv_next_prime hinv hpr

/-- Outside exact mode the `i` a pass of the body leaves is an `int`. -/
theorem loopBody_i_range {m : IntMode} (hm : m ≠ .exact) {s s' : Vars}
    (h : loopBody m s = .val s') : INT_MIN ≤ s'.i ∧ s'.i ≤ INT_MAX := by
  rw [loopBody] at h
  obtain ⟨r, -, h⟩ := bind_eq_val h
  obtain ⟨i2, hi2, h⟩ := bind_eq_val h
  rw [Res.val.injEq] at h
  subst h
  exact norm_range hm hi2

/-- Under ISO C arithmetic every loop head of a run for `n ≥ 1` satisfies the
relation `Inv`, whatever `n` is. -/
theorem head_inv_checked (g : Buffer) (n : Int) (h1 : 1 ≤ n) (s : Vars)
    (h : Head .checked n (start g n) s) : ∃ a, Inv g s a ∧ a < 2 ^ 31 := by
  induction h with
  | first => exact ⟨5, inv_init g n h1, by norm_num⟩
  | next _ _ hbody ih =>
    obtain ⟨a, hinv, ha⟩ := ih
    have hinv' := loopBody_inv_exact (by decide) g _ _ a hinv ha hbody
    refine ⟨a + 2, hinv', ?_⟩
    have hr := (loopBody_i_range (by decide) hbody).2
    rw [hinv'.1] at hr
    simp only [INT_MAX] at hr
    norm_num
    omega

/-- C14 (amended): for every `n ≥ 3`, at every loop head of the run reached
before an `int` overflows (ISO C arithmetic, where the run ends at the first
signed overflow), and in every arithmetic mode when `n ≤ 10001`: `i` is odd
and at least 5, `count - 1` is the number of primes below `i`, every cell
`j < count - 1` whose prime is below 100000 holds the `(j+1)`-th prime, and
every other cell is as the stack left it. -/
theorem C14_loop_invariant (m : IntMode) (g : Buffer) (n : Int) (s : Vars) (h3 : 3 ≤ n)
    (hmode : m = .checked ∨ n ≤ 10001) (hhead : Head m n (start g n) s) :
    ∃ a : Nat, s.i = a ∧ 5 ≤ a ∧ a % 2 = 1 ∧ s.count - 1 = (Nat.count Nat.Prime a : Int) ∧
      (∀ j : Nat, (j : Int) < s.count - 1 → Nat.nth Nat.Prime j < 100000 →
        s.primes j = Nat.nth Nat.Prime j) ∧
      (∀ j : Nat, s.count - 1 ≤ (j : Int) ∨ 100000 ≤ Nat.nth Nat.Prime j →
        s.primes j = g j) := by
  have hinv : ∃ a, Inv g s a := by
    rcases hmode with rfl | hn
    · obtain ⟨a, hinv, -⟩ := head_inv_checked g n (by omega) s hhead
      exact ⟨a, hinv⟩
    · obtain ⟨a, hinv, -⟩ := head_inv_of_le m g n h3 hn s hhead
      exact ⟨a, hinv⟩
  obtain ⟨a, hi, ha5, hodd, hcount, hstored, hrest⟩ := hinv
  refine ⟨a, hi, ha5, hodd, by rw [hcount]; ring, ?_, ?_⟩
  · intro j hj hsm
    have hj2 : j < Nat.count Nat.Prime a := by rw [hcount] at hj; omega
    exact hstored j ((Nat.lt_nth_iff_count_lt Nat.infinite_setOf_prime).1 hj2) hsm
  · intro j hj
    apply hrest j
    rcases hj with hj | hj
    · left
      have hj2 : Nat.count Nat.Prime a ≤ j := by rw [hcount] at hj; omega
      exact (Nat.count_le_iff_le_nth Nat.infinite_setOf_prime).1 hj2
    · exact Or.inr hj

/-- Instance of the amended C14 at the second loop head of the run for `n = 3` under ISO C
arithmetic: after the pass for the candidate 5. -/
theorem C14_loop_invariant_witness :
    (3 : Int) ≤ 3 ∧ (IntMode.checked = .checked ∨ (3 : Int) ≤ 10001) ∧
    Head .checked 3 (start (fun _ => 0) 3)
      { i := 7, count := 4, primes := (start (fun _ => 0) 3).primes.set 2 5 } ∧
    ∃ a : Nat, (7 : Int) = a ∧ 5 ≤ a ∧ a % 2 = 1 ∧
      (4 : Int) - 1 = (Nat.count Nat.Prime a : Int) ∧
      (∀ j : Nat, (j : Int) < 4 - 1 → Nat.nth Nat.Prime j < 100000 →
        ((start (fun _ => 0) 3).primes.set 2 5) j = Nat.nth Nat.Prime j) ∧
      (∀ j : Nat, (4 : Int) - 1 ≤ (j : Int) ∨ 100000 ≤ Nat.nth Nat.Prime j →
        ((start (fun _ => 0) 3).primes.set 2 5) j = (fun _ => (0 : Int)) j) :=
  ⟨by decide, Or.inl rfl, Head.next Head.first (by decide) rfl,
    C14_loop_invariant .checked (fun _ => 0) 3
      { i := 7, count := 4, primes := (start (fun _ => 0) 3).primes.set 2 5 }
      (by decide) (Or.inl rfl) (Head.next Head.first (by decide) rfl)⟩

/-! ### The run for `n = INT_MAX` under wrap-around arithmetic -/

theorem wrap32_eq {x : Int} (h1 : -2147483648 ≤ x) (h2 : x ≤ 2147483647) : wrap32 x = x := by
  unfold wrap32
  omega

theorem norm_wrap (x : Int) : IntMode.norm .wrap x = .val (wrap32 x) := rfl

/-- Under wrap-around arithmetic a scan over cells `1..9591` holding primes and
a cell 9592 holding 1 always returns a verdict: at the latest the 1 divides. -/
theorem scan_wrap_returns (b : Buffer) (i : Int)
    (hcells : ∀ j, 1 ≤ j → j < 9592 → b j = Nat.nth Nat.Prime j) (hlast : b 9592 = 1) :
    ∀ fuel k, fuel + k = CAPACITY + 1 → 1 ≤ k → k ≤ 9592 →
      ∃ v, scan .wrap b i fuel k = .val v := by
  intro fuel
  induction fuel with
  | zero =>
    intro k hk _ hk2
    simp only [CAPACITY] at hk
    omega
  | succ f ih =>
    intro k hk hk1 hk2
    have hload : load b k = .val (b k) := by
      simp only [load, CAPACITY]
      rw [if_pos (by omega)]
    rw [scan, hload, Res.val_bind]
    rcases Nat.eq_or_lt_of_le hk2 with h | h
    · rw [h, hlast, if_neg (by decide), Int.tmod_one, if_pos rfl]
      exact ⟨_, rfl⟩
    · have hcell := hcells k hk1 h
      have hp := (Nat.prime_nth_prime k).pos
      have hne : ¬ b k = 0 := by
        rw [hcell]
        exact_mod_cast hp.ne'
      rw [if_neg hne]
      by_cases hm : i.tmod (b k) = 0
      · rw [if_pos hm]
        exact ⟨_, rfl⟩
      · rw [if_neg hm, norm_wrap, Res.val_bind]
        by_cases hs : wrap32 (b k * b k) > i
        · rw [if_pos hs]
          exact ⟨_, rfl⟩
        · rw [if_neg hs]
          exact ih (k + 1) (by omega) (by omega) (by omega)

/-- A pass of the body from a late loop head under wrap-around arithmetic:
it returns, stores nothing, leaves `count` or adds one, and `i` becomes the
wrapped `i + 2`. -/
theorem late_pass (s : Vars) (a : Nat) (h : LateHead s a) :
    ∃ s', loopBody .wrap s = .val s' ∧ s'.i = wrap32 ((a : Int) + 2) ∧
      s.count ≤ s'.count ∧ s'.count ≤ s.count + 1 ∧ s'.primes = s.primes := by
  obtain ⟨hi, ha1, ha2, hc1, hc2, hcells, hlast⟩ := h
  obtain ⟨v, hv⟩ := scan_wrap_returns s.primes s.i hcells hlast CAPACITY 1 rfl le_rfl
    (by decide)
  have hbig : ¬ s.i < 100000 := by rw [hi]; omega
  rw [loopBody, scan_bind_effect, hv, Res.val_bind]
  cases v with
  | composite =>
    refine ⟨{ s with i := wrap32 (s.i + 2) }, ?_, by simp only [hi], le_rfl, by simp only; omega,
      rfl⟩
    simp only [afterVerdict, Res.val_bind, norm_wrap]
  | prime =>
    have hw : wrap32 (s.count + 1) = s.count + 1 := wrap32_eq (by omega) (by omega)
    refine ⟨{ s with i := wrap32 (s.i + 2), count := s.count + 1 }, ?_, by simp only [hi],
      by simp only; omega, le_rfl, rfl⟩
    simp only [afterVerdict, primeEffect, if_neg hbig, Res.val_bind, norm_wrap, hw]

/-- From a loop head with the relation `Inv` the run reaches, pass after pass,
the loop head of any later candidate below `2 ^ 29`, when `n` is `2 ^ 29` or
more. -/
theorem early_reach (m : IntMode) (g : Buffer) (n : Int) (hn : 536870912 ≤ n) (s0 : Vars) :
    ∀ d s a, Head m n s0 s → Inv g s a → a + 2 * d < 2 ^ 29 →
      ∃ s', Head m n s0 s' ∧ Inv g s' (a + 2 * d) := by
  intro d
  induction d with
  | zero =>
    intro s a hh hinv _
    exact ⟨s, hh, hinv⟩
  | succ d ih =>
    intro s a hh hinv ha
    have hc : s.count ≤ n := by
      have := Nat.count_le (p := Nat.Prime) (n := a)
      rw [hinv.2.2.2.1]
      norm_num at ha
      omega
    have hb := loopBody_spec m g s a hinv (by omega)
    have hinv2 := loopBody_inv m g s _ a hinv (by omega) hb
    obtain ⟨s', hh', hinv'⟩ := ih _ (a + 2) (Head.next hh hc hb) hinv2 (by omega)
    refine ⟨s', hh', ?_⟩
    have e : a + 2 + 2 * d = a + 2 * (d + 1) := by omega
    rw [← e]
    exact hinv'

theorem count_104745 : Nat.count Nat.Prime 104745 = 10001 := by
  have h1 : Nat.count Nat.Prime 104744 = 10001 := by
    rw [Nat.count_succ, count_104743, if_pos (by norm_num)]
  have h2 : ¬ Nat.Prime 104744 := by norm_num
  rw [Nat.count_succ, h1, if_neg h2]

/-- The loop head with candidate 104745 of the run on a stack of ones is a
late loop head. -/
theorem late_of_inv {s : Vars} (hinv : Inv (fun _ => 1) s 104745) : LateHead s 104745 := by
  obtain ⟨hi, -, -, hcount, hstored, hrest⟩ := hinv
  refine ⟨hi, le_rfl, by decide, ?_, ?_, ?_, ?_⟩
  · rw [hcount, count_104745]; decide
  · rw [hcount, count_104745]; decide
  · intro j _ hj
    have := nth_prime_lt_100000 hj
    exact hstored j (by omega) this
  · exact hrest 9592 (Or.inr (le_nth_prime_of_9592_le le_rfl))

/-- From a late loop head the run under wrap-around arithmetic for
`n = INT_MAX` reaches the loop head with candidate `INT_MAX`. -/
theorem late_reach (s0 : Vars) :
    ∀ d s a, Head .wrap 2147483647 s0 s → LateHead s a → a + 2 * d = 2147483647 →
      ∃ s', Head .wrap 2147483647 s0 s' ∧ LateHead s' 2147483647 := by
  intro d
  induction d with
  | zero =>
    intro s a hh hl ha
    have : a = 2147483647 := by omega
    subst this
    exact ⟨s, hh, hl⟩
  | succ d ih =>
    intro s a hh hl ha
    obtain ⟨s', hb, hi', hc1, hc2, hp⟩ := late_pass s a hl
    obtain ⟨hi, ha1, ha2, hk1, hk2, hcells, hlast⟩ := hl
    have hw : wrap32 ((a : Int) + 2) = (a : Int) + 2 := wrap32_eq (by omega) (by omega)
    have hl' : LateHead s' (a + 2) := by
      refine ⟨by rw [hi', hw]; push_cast; ring, by omega, by omega, by omega, by push_cast; omega,
        ?_, ?_⟩
      · intro j h1 h2
        rw [hp]; exact hcells j h1 h2
      · rw [hp]; exact hlast
    exact ih s' (a + 2) (Head.next hh (by omega) hb) hl' (by omega)

/-- The run for `n = INT_MAX` under wrap-around arithmetic, on a stack of
ones, reaches a loop head at which `i` has wrapped to `-2147483647` while
`count` is above the capacity. -/
theorem wrapped_head :
    ∃ s, Head .wrap 2147483647 (start (fun _ => 1) 2147483647) s ∧ s.i = -2147483647 ∧
      10002 ≤ s.count ∧ s.count ≤ 2147483646 ∧ s.primes 1 = 3 := by
  obtain ⟨s1, hh1, hinv1⟩ := early_reach .wrap (fun _ => 1) 2147483647 (by decide)
    (start (fun _ => 1) 2147483647) 52370 _ 5 Head.first (inv_init _ _ (by decide))
    (by norm_num)
  obtain ⟨s2, hh2, hl2⟩ := late_reach _ 1073689451 s1 104745 hh1 (late_of_inv hinv1) (by norm_num)
  obtain ⟨s3, hb, hi3, hc1, hc2, hp⟩ := late_pass s2 _ hl2
  obtain ⟨-, -, -, hk1, hk2, hcells, -⟩ := hl2
  refine ⟨s3, Head.next hh2 (by omega) hb, ?_, by omega, by omega, ?_⟩
  · rw [hi3]; rfl
  · rw [hp, hcells 1 le_rfl (by decide), Nat.nth_prime_one_eq_three]; rfl

/-- C14 as stated fails: under wrap-around arithmetic the run for
`n = 2147483647` on a stack of ones has a loop head, passed by the loop, at
which `i` is `-2147483647`, not at least 5. -/
theorem C14_counterexample :
    ∃ s, Head .wrap 2147483647 (start (fun _ => 1) 2147483647) s ∧
      (∃ k, ∀ fuel, Primelib.run .wrap (fun _ => 1) 2147483647 (k + fuel) =
        Primelib.forLoop .wrap 2147483647 fuel s) ∧
      s.i = -2147483647 ∧ ¬ 5 ≤ s.i := by
  obtain ⟨s, hh, hi, -⟩ := wrapped_head
  exact ⟨s, hh, forLoop_of_head _ _ _ _ hh, hi, by rw [hi]; decide⟩

/-! ### Runs on two different stacks -/

/-- Below the `n`-th prime `P < 2 ^ 29` the value the library function
computes does not depend on what the stack held, for any fuel. -/
theorem forLoop_stack_indep (m : IntMode) (g1 g2 : Buffer) (P : Nat) (hP : Nat.Prime P)
    (hb : P < 2 ^ 29) :
    ∀ fuel s1 s2 a, Inv g1 s1 a → Inv g2 s2 a → a ≤ P + 2 →
      (Primelib.forLoop m ((Nat.count Nat.Prime P : Int) + 1) fuel s1).bind
          (fun s => m.norm (s.i - 2)) =
        (Primelib.forLoop m ((Nat.count Nat.Prime P : Int) + 1) fuel s2).bind
          (fun s => m.norm (s.i - 2)) := by
  intro fuel
  induction fuel with
  | zero =>
    intro s1 s2 a h1 h2 _
    have hc : s1.count = s2.count := by rw [h1.2.2.2.1, h2.2.2.2.1]
    have hi : s1.i = s2.i := by rw [h1.1, h2.1]
    rw [Primelib.forLoop, Primelib.forLoop, hc]
    split
    · rfl
    · rw [Res.val_bind, Res.val_bind, hi]
  | succ f ih =>
    intro s1 s2 a h1 h2 ha
    have hc : s1.count = s2.count := by rw [h1.2.2.2.1, h2.2.2.2.1]
    have hi : s1.i = s2.i := by rw [h1.1, h2.1]
    rw [forLoop_succ, forLoop_succ, hc]
    by_cases hle : s2.count ≤ (Nat.count Nat.Prime P : Int) + 1
    · have haP := candidate_le_of_count_le hP h2 hle
      have hs1 := loopBody_spec m g1 s1 a h1 (by omega)
      have hs2 := loopBody_spec m g2 s2 a h2 (by omega)
      have hinv1 := loopBody_inv m g1 s1 _ a h1 (by omega) hs1
      have hinv2 := loopBody_inv m g2 s2 _ a h2 (by omega) hs2
      rw [if_pos hle, if_pos hle, hs1, hs2, Res.val_bind, Res.val_bind]
      exact ih _ _ (a + 2) hinv1 hinv2 (by omega)
    · rw [if_neg hle, if_neg hle, Res.val_bind, Res.val_bind, hi]

/-- For `n ≤ 10001` what `primes(n)` gives does not depend on what the stack
held, in any arithmetic mode and for any fuel. -/
theorem primes_stack_indep (m : IntMode) (g1 g2 : Buffer) (n : Int) (hn : n ≤ 10001)
    (fuel : Nat) : Primelib.primes m g1 n fuel = Primelib.primes m g2 n fuel := by
  by_cases h2 : n ≤ 2
  · rw [primes_small m g1 n h2 fuel, primes_small m g2 n h2 fuel]
  · obtain ⟨k, rfl⟩ := Int.eq_ofNat_of_zero_le (by omega : 0 ≤ n)
    have hk : k ≤ 10001 := by omega
    obtain ⟨hb, -⟩ := @nth_prime_bounds k 52370 hk le_rfl
    have hcnt : ((Nat.count Nat.Prime (Nat.nth Nat.Prime (k - 1)) : Nat) : Int) + 1 = (k : Int) := by
      rw [Nat.count_nth_of_infinite Nat.infinite_setOf_prime]
      omega
    have h5 := five_le_nth_prime (j := k - 1) (by omega)
    have := forLoop_stack_indep m g1 g2 _ (Nat.prime_nth_prime (k - 1)) hb fuel
      { i := 5, count := 3, primes := seed g1 k } { i := 5, count := 3, primes := seed g2 k } 5
      (inv_init g1 k (by omega)) (inv_init g2 k (by omega)) (by omega)
    rw [hcnt] at this
    exact this

/-- In exact or ISO C arithmetic the scan of a candidate `a < 2 ^ 31` gives the
same on two buffers that both hold the primes below `a` and below 100000. -/
theorem scan_stack_indep {m : IntMode} (hm : m ≠ .wrap) (b1 b2 : Buffer) (a : Nat)
    (ha5 : 5 ≤ a) (ha : a < 2 ^ 31)
    (h1 : ∀ j, 1 ≤ j → Nat.nth Nat.Prime j < a → Nat.nth Nat.Prime j < 100000 →
      b1 j = Nat.nth Nat.Prime j)
    (h2 : ∀ j, 1 ≤ j → Nat.nth Nat.Prime j < a → Nat.nth Nat.Prime j < 100000 →
      b2 j = Nat.nth Nat.Prime j) :
    ∀ fuel k, 1 ≤ k →
      (∀ j, 1 ≤ j → j < k →
        ¬ Nat.nth Nat.Prime j ∣ a ∧ Nat.nth Nat.Prime j * Nat.nth Nat.Prime j ≤ a) →
      scan m b1 a fuel k = scan m b2 a fuel k := by
  intro fuel
  induction fuel with
  | zero => intro k _ _; rfl
  | succ f ih =>
    intro k hk1 hscan
    obtain ⟨hpa, hp9, hk9⟩ := scan_cell_bounds_wide ha5 ha hk1 hscan
    have hload1 : load b1 k = .val (Nat.nth Nat.Prime k : Int) := by
      simp only [load, CAPACITY, h1 k hk1 hpa (by omega)]
      rw [if_pos (by omega)]
    have hload2 : load b2 k = .val (Nat.nth Nat.Prime k : Int) := by
      simp only [load, CAPACITY, h2 k hk1 hpa (by omega)]
      rw [if_pos (by omega)]
    rw [scan, scan, hload1, hload2, Res.val_bind, Res.val_bind]
    by_cases hne : ((Nat.nth Nat.Prime k : Nat) : Int) = 0
    · rw [if_pos hne, if_pos hne]
    · rw [if_neg hne, if_neg hne]
      by_cases hz : (a : Int).tmod (Nat.nth Nat.Prime k : Int) = 0
      · rw [if_pos hz, if_pos hz]
      · rw [if_neg hz, if_neg hz]
        have hdvd : ¬ Nat.nth Nat.Prime k ∣ a := by
          intro hd
          apply hz
          rw [← Int.ofNat_tmod]
          exact_mod_cast Nat.mod_eq_zero_of_dvd hd
        cases hn : m.norm ((Nat.nth Nat.Prime k : Int) * (Nat.nth Nat.Prime k : Int)) with
        | val sq =>
          have hsq := norm_exact hm hn
          subst hsq
          rw [Res.val_bind, Res.val_bind]
          by_cases hgt : (Nat.nth Nat.Prime k : Int) * (Nat.nth Nat.Prime k : Int) > (a : Int)
          · rw [if_pos hgt, if_pos hgt]
          · rw [if_neg hgt, if_neg hgt]
            refine ih (k + 1) (by omega) ?_
            intro j hj1 hj2
            rcases Nat.eq_or_lt_of_le (Nat.lt_succ_iff.1 hj2) with h | h
            · subst h
              refine ⟨hdvd, ?_⟩
              have : ¬ (a < Nat.nth Nat.Prime j * Nat.nth Nat.Prime j) := by
                intro hlt
                exact hgt (by exact_mod_cast hlt)
              omega
            · exact hscan j hj1 h
        | fault e => rfl
        | timeout => rfl

/-- In exact or ISO C arithmetic a pass of the body from two loop heads with
the same candidate `a < 2 ^ 31`, on two stacks, ends the same way and leaves
the same `i` and `count`. -/
theorem loopBody_stack_indep {m : IntMode} (hm : m ≠ .wrap) (g1 g2 : Buffer) (s1 s2 : Vars)
    (a : Nat) (h1 : Inv g1 s1 a) (h2 : Inv g2 s2 a) (ha : a < 2 ^ 31) :
    (loopBody m s1).bind (fun s => Res.val (s.i, s.count)) =
      (loopBody m s2).bind (fun s => Res.val (s.i, s.count)) := by
  have hi : s1.i = s2.i := by rw [h1.1, h2.1]
  have hc : s1.count = s2.count := by rw [h1.2.2.2.1, h2.2.2.2.1]
  have hscan : scan m s1.primes s1.i CAPACITY 1 = scan m s2.primes s2.i CAPACITY 1 := by
    rw [h1.1, h2.1]
    exact scan_stack_indep hm s1.primes s2.primes a h1.2.1 ha
      (fun j _ hj h5 => h1.2.2.2.2.1 j hj h5) (fun j _ hj h5 => h2.2.2.2.2.1 j hj h5)
      CAPACITY 1 le_rfl (fun j hj1 hj2 => by omega)
  rw [loopBody, loopBody, scan_bind_effect, scan_bind_effect, hscan]
  cases scan m s2.primes s2.i CAPACITY 1 with
  | val v =>
    cases v with
    | composite =>
      simp only [Res.val_bind, afterVerdict, hi, hc, Res.bind_assoc]
    | prime =>
      simp only [Res.val_bind, afterVerdict, primeEffect, hi, hc, Res.bind_assoc]
      by_cases hsm : s2.i < 100000
      · simp only [if_pos hsm, Res.bind_assoc]
        cases m.norm (s2.count - 1) with
        | val idx =>
          simp only [Res.val_bind, store]
          by_cases hidx : 0 ≤ idx ∧ idx < (CAPACITY : Int)
          · simp only [if_pos hidx, Res.val_bind]
          · simp only [if_neg hidx, Res.fault_bind]
        | fault e => rfl
        | timeout => rfl
      · simp only [if_neg hsm, Res.val_bind]
  | fault e => rfl
  | timeout => rfl

/-- Under ISO C arithmetic, for every `n`, the loop run from two loop heads
with the same candidate on two stacks gives the same value of `i - 2`, or
ends in the same fault, or runs out of the same fuel. -/
theorem forLoop_stack_indep_checked (g1 g2 : Buffer) (n : Int) :
    ∀ fuel s1 s2 a, Inv g1 s1 a → Inv g2 s2 a → a < 2 ^ 31 →
      (Primelib.forLoop .checked n fuel s1).bind (fun s => IntMode.norm .checked (s.i - 2)) =
        (Primelib.forLoop .checked n fuel s2).bind
          (fun s => IntMode.norm .checked (s.i - 2)) := by
  intro fuel
  induction fuel with
  | zero =>
    intro s1 s2 a h1 h2 _
    have hc : s1.count = s2.count := by rw [h1.2.2.2.1, h2.2.2.2.1]
    have hi : s1.i = s2.i := by rw [h1.1, h2.1]
    rw [Primelib.forLoop, Primelib.forLoop, hc]
    split
    · rfl
    · rw [Res.val_bind, Res.val_bind, hi]
  | succ f ih =>
    intro s1 s2 a h1 h2 ha
    have hc : s1.count = s2.count := by rw [h1.2.2.2.1, h2.2.2.2.1]
    have hi : s1.i = s2.i := by rw [h1.1, h2.1]
    rw [forLoop_succ, forLoop_succ, hc]
    by_cases hle : s2.count ≤ n
    · rw [if_pos hle, if_pos hle]
      have he := loopBody_stack_indep (m := .checked) (by decide) g1 g2 s1 s2 a h1 h2 ha
      cases hb1 : loopBody .checked s1 with
      | val s1' =>
        cases hb2 : loopBody .checked s2 with
        | val s2' =>
          rw [Res.val_bind, Res.val_bind]
          have hinv1 := loopBody_inv_exact (by decide) g1 _ _ a h1 ha hb1
          have hinv2 := loopBody_inv_exact (by decide) g2 _ _ a h2 ha hb2
          have hr := (loopBody_i_range (by decide) hb1).2
          rw [hinv1.1] at hr
          simp only [INT_MAX] at hr
          exact ih s1' s2' (a + 2) hinv1 hinv2 (by norm_num; omega)
        | fault e => rw [hb1, hb2] at he; exact absurd he (by simp [Res.bind])
        | timeout => rw [hb1, hb2] at he; exact absurd he (by simp [Res.bind])
      | fault e =>
        cases hb2 : loopBody .checked s2 with
        | val s2' => rw [hb1, hb2] at he; exact absurd he (by simp [Res.bind])
        | fault e' =>
          rw [hb1, hb2] at he
          simp only [Res.fault_bind, Res.fault.injEq] at he
          rw [he]
        | timeout => rw [hb1, hb2] at he; exact absurd he (by simp [Res.bind])
      | timeout =>
        cases hb2 : loopBody .checked s2 with
        | val s2' => rw [hb1, hb2] at he; exact absurd he (by simp [Res.bind])
        | fault e' => rw [hb1, hb2] at he; exact absurd he (by simp [Res.bind])
        | timeout => rfl
    · rw [if_neg hle, if_neg hle, Res.val_bind, Res.val_bind, hi]

/-- Under ISO C arithmetic, for every `n`, what `primes(n)` gives does not
depend on what the stack held. -/
theorem primes_stack_indep_checked (g1 g2 : Buffer) (n : Int) (fuel : Nat) :
    Primelib.primes .checked g1 n fuel = Primelib.primes .checked g2 n fuel := by
  by_cases h2 : n ≤ 2
  · rw [primes_small .checked g1 n h2 fuel, primes_small .checked g2 n h2 fuel]
  · exact forLoop_stack_indep_checked g1 g2 n fuel _ _ 5 (inv_init g1 n (by omega))
      (inv_init g2 n (by omega)) (by norm_num)

/-- The variables when the loop is left, for `n ≤ 10001`: `i`, `count`, the
cells the run has written (cells 0 and 1 when `n ≥ 1`, cell `j < n` when
`j < 9592`) hold the primes in order, and every other cell is as the stack
left it. -/
theorem run_cells (m : IntMode) (g : Buffer) (n : Int) (hn : n ≤ 10001) (fuel : Nat)
    (hf : 52370 ≤ fuel) :
    ∃ s, Primelib.run m g n fuel = .val s ∧
      s.i = (if n ≤ 2 then 5 else (Nat.nth Nat.Prime (n.toNat - 1) : Int) + 2) ∧
      s.count = (if n ≤ 2 then 3 else n + 1) ∧
      (∀ j : Nat, j < 9592 → ((j : Int) < n ∨ (1 ≤ n ∧ j < 2)) →
        s.primes j = Nat.nth Nat.Prime j) ∧
      (∀ j : Nat, 9592 ≤ j ∨ (n ≤ (j : Int) ∧ (n < 1 ∨ 2 ≤ j)) → s.primes j = g j) := by
  by_cases h2 : n ≤ 2
  · refine ⟨_, run_small m g n h2 fuel, by rw [if_pos h2], by rw [if_pos h2], ?_, ?_⟩
    · intro j _ hj
      have h1 : n ≥ 1 := by omega
      have hs : seed g n = (g.set 0 2).set 1 3 := by simp [seed, h1]
      simp only [hs]
      have : j = 0 ∨ j = 1 := by omega
      rcases this with rfl | rfl
      · simp [Buffer.set, Nat.nth_prime_zero_eq_two]
      · simp [Buffer.set, Nat.nth_prime_one_eq_three]
    · intro j hj
      by_cases h1 : n ≥ 1
      · have hs : seed g n = (g.set 0 2).set 1 3 := by simp [seed, h1]
        simp only [hs, Buffer.set]
        rw [if_neg (by omega), if_neg (by omega)]
      · simp only [seed, if_neg h1]
  · obtain ⟨k, rfl⟩ := Int.eq_ofNat_of_zero_le (by omega : 0 ≤ n)
    have hk3 : 3 ≤ k := by omega
    have hk : k ≤ 10001 := by omega
    obtain ⟨hb, hfb⟩ := @nth_prime_bounds k fuel hk hf
    obtain ⟨s, hrun, hinv⟩ := run_spec m g k hk3 hb fuel hfb
    have h5 := five_le_nth_prime (j := k - 1) (by omega)
    have hodd := nth_prime_odd (j := k - 1) (by omega)
    refine ⟨s, hrun, ?_, ?_, ?_, ?_⟩
    · rw [if_neg h2, hinv.1, Int.toNat_ofNat]
      push_cast
      ring
    · rw [if_neg h2, hinv.2.2.2.1, count_add_two h5 hodd, if_pos (Nat.prime_nth_prime _),
        Nat.count_nth_of_infinite Nat.infinite_setOf_prime]
      omega
    · intro j hj9 hj
      exact (final_cells hk3 hinv j).1 (by omega) (nth_prime_lt_100000 hj9)
    · intro j hj
      apply (final_cells hk3 hinv j).2
      rcases hj with hj | hj
      · exact Or.inr (le_nth_prime_of_9592_le hj)
      · exact Or.inl (by omega)

/-- C13 as stated fails: the two buffers are two uninitialised locals of two
different functions.  Run the program for `n = 3` on a stack holding 0 and the
library for `n = 3` on a stack holding 1: both compute the scalar 5, and cell 9,
which neither run writes, holds 0 in one buffer and 1 in the other. -/
theorem C13_counterexample :
    ∃ s1 s2, Prime5.run .checked (fun _ => 0) 3 52370 = .val s1 ∧
      Primelib.run .checked (fun _ => 1) 3 52370 = .val s2 ∧
      Prime5.main .checked 1 (fun _ => 0) 3 52370 = .val (.nth 5 3) ∧
      Primelib.primes .checked (fun _ => 1) 3 52370 = .val 5 ∧
      s1.primes 9 ≠ s2.primes 9 := by
  obtain ⟨s1, hrun1, -, -, -, hrest1⟩ :=
    run_cells .checked (fun _ => 0) 3 (by decide) 52370 le_rfl
  obtain ⟨s2, hrun2, -, -, -, hrest2⟩ :=
    run_cells .checked (fun _ => 1) 3 (by decide) 52370 le_rfl
  have hp : ∀ g, Primelib.primes .checked g 3 52370 = .val 5 := by
    intro g
    have := primes_eq_nth_prime .checked g 3 (by decide) (by decide) 52370 le_rfl
    rw [show (3 : Nat) - 1 = 2 from rfl, nth_prime_two] at this
    exact this
  refine ⟨s1, s2, by rw [prime5_run_eq]; exact hrun1, hrun2,
    main_default .checked 1 _ 3 52370 (by decide) 5 (hp _), hp _, ?_⟩
  rw [hrest1 9 (Or.inr ⟨by decide, Or.inr (by decide)⟩),
    hrest2 9 (Or.inr ⟨by decide, Or.inr (by decide)⟩)]
  decide

/-- C13 (amended): in default mode (`argc ≤ 1`), for every stack content and
every fuel:
(1) started on the same stack content, for every `n` and every arithmetic mode,
`main` prints exactly what `primes(n)` returns (and fails or runs on exactly
when it does), and the two loops leave the same variables, the buffer among
them;
(2) on two different stacks `g1`, `g2`, `main` still prints exactly what
`primes(n)` returns, for every `n` under ISO C arithmetic and for `n ≤ 10001`
in every arithmetic mode;
(3) on two different stacks, for `n ≤ 10001` and enough fuel, both return, with
the same `i` and `count`, the printed scalar is `i - 2`, every cell a run has
written (cells 0 and 1 when `n ≥ 1`, cell `j < n` when `j < 9592`) is the same
in the two buffers, and every other cell is what the stack of its own program
held. -/
theorem C13_program_equals_library (m : IntMode) (argc : Int) (g1 g2 : Buffer) (n : Int)
    (fuel : Nat) (hargc : argc ≤ 1) :
    (Prime5.main m argc g1 n fuel =
        (Primelib.primes m g1 n fuel).bind (fun v => .val (.nth v n)) ∧
      Prime5.run m g1 n fuel = Primelib.run m g1 n fuel) ∧
    (m = .checked ∨ n ≤ 10001 →
      Prime5.main m argc g1 n fuel =
        (Primelib.primes m g2 n fuel).bind (fun v => .val (.nth v n))) ∧
    (n ≤ 10001 → 52370 ≤ fuel →
      ∃ v s1 s2, Primelib.primes m g2 n fuel = .val v ∧
        Prime5.main m argc g1 n fuel = .val (.nth v n) ∧
        Prime5.run m g1 n fuel = .val s1 ∧ Primelib.run m g2 n fuel = .val s2 ∧
        s1.i = s2.i ∧ s1.count = s2.count ∧ v = s2.i - 2 ∧
        (∀ j : Nat, j < 9592 → ((j : Int) < n ∨ (1 ≤ n ∧ j < 2)) →
          s1.primes j = s2.primes j) ∧
        (∀ j : Nat, 9592 ≤ j ∨ (n ≤ (j : Int) ∧ (n < 1 ∨ 2 ≤ j)) →
          s1.primes j = g1 j ∧ s2.primes j = g2 j)) := by
  have hsame := main_eq_primes_same_stack m argc g1 n fuel hargc
  refine ⟨hsame, ?_, ?_⟩
  · intro h
    rw [hsame.1]
    rcases h with h | h
    · subst h
      rw [primes_stack_indep_checked g1 g2 n fuel]
    · rw [primes_stack_indep m g1 g2 n h fuel]
  · intro hn hf
    obtain ⟨s1, hrun1, hi1, hc1, hw1, hu1⟩ := run_cells m g1 n hn fuel hf
    obtain ⟨s2, hrun2, hi2, hc2, hw2, hu2⟩ := run_cells m g2 n hn fuel hf
    have hv : ∃ v, Primelib.primes m g2 n fuel = .val v := by
      by_cases h2 : n ≤ 2
      · exact ⟨3, primes_small m g2 n h2 fuel⟩
      · obtain ⟨k, rfl⟩ := Int.eq_ofNat_of_zero_le (by omega : 0 ≤ n)
        exact ⟨_, primes_eq_nth_prime m g2 k (by omega) (by omega) fuel hf⟩
    obtain ⟨v, hv⟩ := hv
    have hv1 : Primelib.primes m g1 n fuel = .val v := by
      rw [primes_stack_indep m g1 g2 n hn fuel]
      exact hv
    have hvi : v = s2.i - 2 := by
      have h := hv
      rw [Primelib.primes, hrun2, Res.val_bind] at h
      by_cases h2 : n ≤ 2
      · rw [primes_small m g2 n h2 fuel] at hv
        rw [if_pos h2] at hi2
        have := Res.val.inj hv
        omega
      · obtain ⟨k, rfl⟩ := Int.eq_ofNat_of_zero_le (by omega : 0 ≤ n)
        rw [primes_eq_nth_prime m g2 k (by omega) (by omega) fuel hf] at hv
        rw [if_neg h2, Int.toNat_ofNat] at hi2
        have := Res.val.inj hv
        omega
    refine ⟨v, s1, s2, hv, main_default m argc g1 n fuel hargc v hv1,
      by rw [prime5_run_eq]; exact hrun1, hrun2, by rw [hi1, hi2], by rw [hc1, hc2], hvi, ?_, ?_⟩
    · intro j hj9 hj
      rw [hw1 j hj9 hj, hw2 j hj9 hj]
    · intro j hj
      exact ⟨hu1 j hj, hu2 j hj⟩

/-- Instance of C13 at `n = 3`, no command-line argument, the program on a
stack holding 0 and the library on a stack holding 1, wrap-around arithmetic. -/
theorem C13_program_equals_library_witness :
    (1 : Int) ≤ 1 ∧ (3 : Int) ≤ 10001 ∧ 52370 ≤ 52370 ∧
    ∃ v s1 s2, Primelib.primes .wrap (fun _ => 1) 3 52370 = .val v ∧
      Prime5.main .wrap 1 (fun _ => 0) 3 52370 = .val (.nth v 3) ∧
      Prime5.run .wrap (fun _ => 0) 3 52370 = .val s1 ∧
      Primelib.run .wrap (fun _ => 1) 3 52370 = .val s2 ∧
      s1.i = s2.i ∧ s1.count = s2.count ∧ v = s2.i - 2 ∧
      (∀ j : Nat, j < 9592 → ((j : Int) < 3 ∨ ((1 : Int) ≤ 3 ∧ j < 2)) →
        s1.primes j = s2.primes j) ∧
      (∀ j : Nat, 9592 ≤ j ∨ ((3 : Int) ≤ (j : Int) ∧ ((3 : Int) < 1 ∨ 2 ≤ j)) →
        s1.primes j = (fun _ => (0 : Int)) j ∧ s2.primes j = (fun _ => (1 : Int)) j) :=
  ⟨by decide, by decide, le_rfl,
    (C13_program_equals_library .wrap 1 (fun _ => 0) (fun _ => 1) 3 52370 (by decide)).2.2
      (by decide) le_rfl⟩

end Primes
